import Mathlib

/-!
# The redis-backed message queue of gmqtt (`persistence/queue/redis/redis.go`)

A shallow embedding of `Queue` and of its operations `Init`, `Add`, `Replace`,
`Read`, `ReadInflight` and `Remove`, followed by theorems about them.

Modelling conventions.

* The Go fields `len`, `max` and `current` have type `int`; they are embedded as
  `Int`.  The counters move by one per stored element, so they never come near
  the 64-bit bounds.  The end index of the range read of `ReadInflight` is
  computed from the caller's `maxSize`, a `uint` of any size: the conversion
  `int(maxSize)` and the sum `r.current+int(maxSize)-1` are embedded with
  their 64-bit wrap (`toInt`, `wrapInt`).
* The mutex and the condition variable are not modelled: every operation is one
  atomic step on the pair (queue fields, backing list).  `Read` waiting on the
  condition is the outcome `blocked`.
* A `Queue` value is a queue whose `readCache` map has been allocated (by
  `Init`); the map is embedded as a function `PacketID → Option Bytes`.
* The redis connection is embedded by the list stored under the client's key, a
  flag `down` (every command of a call fails and changes nothing) and the log
  of the commands issued.  Commands queued with `Send` are executed in issue
  order; they are written out by `Flush`, or else when the pooled connection
  is closed.
-/

namespace Gmqtt

/-- Raw bytes, as stored in the redis list. -/
abbrev Bytes := List Nat

/-- The type `packets.PacketID` (a `uint16`). -/
abbrev PacketID := Nat

/-- Modelled from the spec: the type `queue.Elem` is declared outside
`redis.go`.  Following section 3 of the specification an element is a message
payload, a delivery class (`qos = 0` is at-most-once), an expiry timestamp and
a delivery identifier (`id = 0` means not yet dispatched). -/
structure Elem where
  /-- Delivery identifier, `ID()` in the source. -/
  id : PacketID
  /-- Delivery class, `QoS` in the source. -/
  qos : Nat
  /-- Expiry timestamp. -/
  expiry : Nat
  /-- The message payload. -/
  payload : List Nat
deriving DecidableEq, Repr

/-- The method `SetID` of an element. -/
def Elem.SetID (e : Elem) (id : PacketID) : Elem := { e with id := id }

/-- The functions of package `queue` that `redis.go` calls and that are
declared outside it: the codec (`Encode`, `Decode`) and `ElemExpiry`.  They
are parameters of every operation. -/
structure QueuePkg where
  /-- The method `Elem.Encode`. -/
  Encode : Elem → Bytes
  /-- The method `Elem.Decode`; `none` is a decoding error. -/
  Decode : Bytes → Option Elem
  /-- The function `queue.ElemExpiry now e`. -/
  ElemExpiry : Nat → Elem → Bool

/-- The codec law of the specification: decoding an encoding gives the element
back. -/
def QueuePkg.RoundTrip (pkg : QueuePkg) : Prop :=
  ∀ e : Elem, pkg.Decode (pkg.Encode e) = some e

/-- Errors returned by the operations. -/
inductive Err where
  /-- A backing-store command failed. -/
  | store
  /-- Stored bytes could not be decoded. -/
  | decode
  /-- The error `queue.ErrClosed`. -/
  | closed
deriving DecidableEq, Repr

/-- The redis commands that `redis.go` issues on the client's key. -/
inductive Cmd where
  | del
  | llen
  | lrange (start stop : Int)
  | lrem (b : Bytes)
  | lset (index : Int) (b : Bytes)
  | rpush (b : Bytes)
deriving DecidableEq, Repr

/-- The redis command `LRANGE key start stop`: both bounds are inclusive, a
negative index counts from the end of the list, and the range is cut to the
list. -/
def lrange (l : List Bytes) (start stop : Int) : List Bytes :=
  let n : Int := l.length
  let start1 := if start < 0 then n + start else start
  let stop1 := if stop < 0 then n + stop else stop
  let start2 := if start1 < 0 then 0 else start1
  if start2 > stop1 ∨ start2 ≥ n then []
  else
    let stop2 := if stop1 ≥ n then n - 1 else stop1
    (l.drop start2.toNat).take (stop2 - start2 + 1).toNat

/-- The redis command `LSET key index value`; an index outside the list is an
error reply and changes nothing. -/
def lset (l : List Bytes) (index : Int) (b : Bytes) : List Bytes :=
  let n : Int := l.length
  let i := if index < 0 then n + index else index
  if i < 0 ∨ i ≥ n then l else l.set i.toNat b

/-- The effect of one command on the stored list.  `LREM key 1 value` removes
the first element equal to `value`. -/
def Cmd.exec : Cmd → List Bytes → List Bytes
  | .del, _ => []
  | .llen, l => l
  | .lrange _ _, l => l
  | .lrem b, l => l.erase b
  | .lset i b, l => Gmqtt.lset l i b
  | .rpush b, l => l ++ [b]

/-- The backing store as seen through one connection. -/
structure Redis where
  /-- The list stored under the client's key. -/
  list : List Bytes
  /-- Whether the connection is broken: every command fails. -/
  down : Bool
  /-- The commands issued so far, oldest first. -/
  log : List Cmd
deriving DecidableEq, Repr

/-- Issue one command: it is logged, and executed unless the connection is
down. -/
def Redis.run (s : Redis) (c : Cmd) : Redis :=
  { s with list := if s.down then s.list else c.exec s.list, log := s.log ++ [c] }

/-- Issue a batch of queued commands in order. -/
def Redis.runAll (s : Redis) (cs : List Cmd) : Redis :=
  cs.foldl Redis.run s

/-- The mutable fields of `Queue`, with `onMsgDropped` reduced to whether a
callback is configured. -/
structure Queue where
  max : Int
  len : Int
  closed : Bool
  inflightDrained : Bool
  current : Int
  readCache : PacketID → Option Bytes
  onMsgDropped : Bool

/-- The calls of the drop callback made for element `e`: one when a callback
is configured, none otherwise. -/
def Queue.notify (q : Queue) (e : Elem) : List Elem :=
  if q.onMsgDropped then [e] else []

/-- The conversion `int(maxSize)` of a `uint` on a 64-bit platform. -/
def toInt (n : Nat) : Int :=
  let m : Nat := n % 2 ^ 64
  if m < 2 ^ 63 then Int.ofNat m else Int.ofNat m - 2 ^ 64

/-- The value of an `int` expression on a 64-bit platform: the mathematical
value `z` brought back into `[-2 ^ 63, 2 ^ 63)` by wrapping. -/
def wrapInt (z : Int) : Int := (z + 2 ^ 63) % 2 ^ 64 - 2 ^ 63

/-! ## Close and Init -/

/-- The method `Queue.Close`. -/
def Close (q : Queue) : Queue × Option Err :=
  ({ q with closed := true }, none)

/-- Result of `Init`. -/
structure InitResult where
  q : Queue
  s : Redis
  err : Option Err

/-- The method `Queue.Init`. -/
def Init (q : Queue) (s : Redis) (cleanStart : Bool) : InitResult :=
  let s1 := if cleanStart then s.run .del else s
  if cleanStart ∧ s.down then ⟨q, s1, some .store⟩
  else
    let s2 := s1.run .llen
    if s.down then ⟨q, s2, some .store⟩
    else
      ⟨{ q with
          len := (s2.list.length : Int)
          closed := false
          inflightDrained := false
          current := 0
          readCache := fun _ => none }, s2, none⟩

/-! ## Add -/

/-- The local variables of `Add` that the scan of the window sets. -/
structure AddVars where
  dropBytes : Option Bytes
  dropElem : Option Elem
  frontBytes : Option Bytes
  frontElem : Option Elem
deriving DecidableEq, Repr

/-- How the scan loop of `Add` ends: it ran to the end of the range, or a
`return` inside the loop left the function with the given error value. -/
inductive ScanExit where
  | finished
  | returned (err : Option Err)
deriving DecidableEq, Repr

/-- The loop `for i := 0; i < len(rs); i++` of `Add`, from index `i` on. -/
def addScan (pkg : QueuePkg) (now : Nat) :
    Nat → List Bytes → AddVars → AddVars × ScanExit
  | _, [], v => (v, .finished)
  | i, b :: rest, v =>
    match pkg.Decode b with
    | none => (v, .returned (some .decode))
    | some e =>
      if e.id = 0 then
        let v1 := if i = 0 then { v with frontBytes := some b, frontElem := some e } else v
        if pkg.ElemExpiry now e then
          ({ v1 with dropBytes := some b, dropElem := some e }, .returned none)
        else
          let v2 :=
            if e.qos = 0 ∧ v1.dropElem = none then
              { v1 with dropBytes := some b, dropElem := some e }
            else v1
          addScan pkg now (i + 1) rest v2
      else addScan pkg now (i + 1) rest v

/-- Result of `Add`: the new state, the returned error and the calls made to
the drop callback, in order. -/
structure AddResult where
  q : Queue
  s : Redis
  err : Option Err
  notified : List Elem

/-- The deferred function of `Add` that sends the queued commands, run with the
values the body left in `drop`, `dropBytes`, `dropElem` and `err`. -/
def addDeferred (pkg : QueuePkg) (q : Queue) (s : Redis) (elem : Elem)
    (drop : Bool) (v : AddVars) (err : Option Err) : AddResult :=
  let flushErr : Option Err := if s.down then some .store else none
  if drop then
    match v.dropBytes with
    | none => ⟨q, s, err, q.notify elem⟩
    | some db =>
      let s1 := s.runAll [.lrem db, .rpush (pkg.Encode elem)]
      let called := match v.dropElem with
        | some de => q.notify de
        | none => []
      ⟨{ q with len := q.len + 1 }, s1, flushErr, called⟩
  else
    ⟨{ q with len := q.len + 1 }, s.run (.rpush (pkg.Encode elem)), flushErr, []⟩

/-- The method `Queue.Add`, called at time `now`. -/
def Add (pkg : QueuePkg) (now : Nat) (q : Queue) (s : Redis) (elem : Elem) : AddResult :=
  let v0 : AddVars := ⟨none, none, none, none⟩
  if q.len ≥ q.max then
    if q.inflightDrained ∧ q.current ≥ q.len then
      addDeferred pkg q s elem true v0 none
    else
      let s1 := s.run (.lrange q.current q.len)
      if s.down then addDeferred pkg q s1 elem true v0 (some .store)
      else
        let rs := lrange s.list q.current q.len
        match addScan pkg now 0 rs v0 with
        | (v, .returned err) => addDeferred pkg q s1 elem true v err
        | (v, .finished) =>
          if v.dropElem ≠ none then addDeferred pkg q s1 elem true v none
          else if elem.qos = 0 then addDeferred pkg q s1 elem true v none
          else
            let v1 := if v.frontElem ≠ none then
                { v with dropBytes := v.frontBytes, dropElem := v.frontElem }
              else v
            addDeferred pkg q s1 elem true v1 none
  else addDeferred pkg q s elem false v0 none

/-! ## Replace -/

/-- How the loop of `Replace` ends. -/
inductive ReplaceScan where
  /-- The element at index `k` of the range has the identifier looked for. -/
  | found (k : Nat)
  /-- A stored value could not be decoded. -/
  | decodeErr
  /-- The range holds no element with that identifier. -/
  | notFound
deriving DecidableEq, Repr

/-- The loop `for k, v := range rs` of `Replace`, from index `k` on. -/
def replaceScan (pkg : QueuePkg) (elem : Elem) : Nat → List Bytes → ReplaceScan
  | _, [] => .notFound
  | k, b :: rest =>
    match pkg.Decode b with
    | none => .decodeErr
    | some e => if e.id = elem.id then .found k else replaceScan pkg elem (k + 1) rest

/-- Result of `Replace`. -/
structure ReplaceResult where
  q : Queue
  s : Redis
  replaced : Bool
  err : Option Err

/-- The method `Queue.Replace`. -/
def Replace (pkg : QueuePkg) (q : Queue) (s : Redis) (elem : Elem) : ReplaceResult :=
  let id := elem.id
  let eb := pkg.Encode elem
  let stop := if q.current - 1 < 0 then 0 else q.current - 1
  let s1 := s.run (.lrange 0 stop)
  if s.down then ⟨q, s1, false, some .store⟩
  else
    match replaceScan pkg elem 0 (lrange s.list 0 stop) with
    | .decodeErr => ⟨q, s1, false, some .decode⟩
    | .notFound => ⟨q, s1, false, none⟩
    | .found k =>
      ⟨{ q with readCache := Function.update q.readCache id (some eb) },
        s1.run (.lset (k : Int) eb), true, none⟩

/-! ## Read -/

/-- What a call of `Read` does. -/
inductive ReadOutcome where
  /-- The panic `must call ReadInflight to drain all inflight messages before Read`. -/
  | protocolPanic
  /-- The call waits on the condition variable. -/
  | blocked
  /-- The run-time panic of `pids[pflag]` with `pflag` out of range. -/
  | indexPanic
  /-- The call returns `(elems, err)`. -/
  | returned (elems : List Elem) (err : Option Err)
deriving DecidableEq, Repr

/-- The variables that the loop of `Read` updates; `sent` is the pipeline of
commands queued with `Send`. -/
structure ReadVars where
  len : Int
  current : Int
  readCache : PacketID → Option Bytes
  pflag : Nat
  elems : List Elem
  sent : List Cmd

/-- How the loop of `Read` ends. -/
inductive ReadExit where
  | finished
  | decodeErr
  | indexPanic
deriving DecidableEq, Repr

/-- The loop `for i := 0; i < len(rs); i++` of `Read`. -/
def readLoop (pkg : QueuePkg) (now : Nat) (pids : List PacketID) :
    List Bytes → ReadVars → ReadVars × ReadExit
  | [], v => (v, .finished)
  | b :: rest, v =>
    match pkg.Decode b with
    | none => (v, .decodeErr)
    | some e =>
      if pkg.ElemExpiry now e then
        readLoop pkg now pids rest { v with sent := v.sent ++ [.lrem b], len := v.len - 1 }
      else if e.qos = 0 then
        readLoop pkg now pids rest
          { v with sent := v.sent ++ [.lrem b], len := v.len - 1, elems := v.elems ++ [e] }
      else
        match pids.get? v.pflag with
        | none => (v, .indexPanic)
        | some pid =>
          let e1 := e.SetID pid
          let nb := pkg.Encode e1
          readLoop pkg now pids rest
            { v with
              pflag := v.pflag + 1
              sent := v.sent ++ [.lset v.current nb]
              current := v.current + 1
              readCache := Function.update v.readCache e1.id (some nb)
              elems := v.elems ++ [e1] }

/-- Result of `Read`. -/
structure ReadResult where
  q : Queue
  s : Redis
  out : ReadOutcome

/-- The method `Queue.Read`, called at time `now`. -/
def Read (pkg : QueuePkg) (now : Nat) (q : Queue) (s : Redis) (pids : List PacketID) :
    ReadResult :=
  if ¬ q.inflightDrained then ⟨q, s, .protocolPanic⟩
  else if q.current ≥ q.len ∧ ¬ q.closed then ⟨q, s, .blocked⟩
  else if q.closed then ⟨q, s, .returned [] (some .closed)⟩
  else
    let stop := q.current + (pids.length : Int) - 1
    let s1 := s.run (.lrange q.current stop)
    if s.down then ⟨q, s1, .returned [] (some .store)⟩
    else
      let r := readLoop pkg now pids (lrange s.list q.current stop)
        ⟨q.len, q.current, q.readCache, 0, [], []⟩
      let q1 := { q with len := r.1.len, current := r.1.current, readCache := r.1.readCache }
      let s2 := s1.runAll r.1.sent
      match r.2 with
      | .finished => ⟨q1, s2, .returned r.1.elems none⟩
      | .decodeErr => ⟨q1, s2, .returned [] (some .decode)⟩
      | .indexPanic => ⟨q1, s2, .indexPanic⟩

/-! ## ReadInflight -/

/-- The variables that the loop of `ReadInflight` updates. -/
structure InflightVars where
  current : Int
  readCache : PacketID → Option Bytes
  inflightDrained : Bool
  elems : List Elem

/-- The loop `for _, v := range rs` of `ReadInflight`; the second component is
the returned pair `(elems, err)`. -/
def inflightLoop (pkg : QueuePkg) :
    List Bytes → InflightVars → InflightVars × (List Elem × Option Err)
  | [], v => (v, (v.elems, none))
  | b :: rest, v =>
    match pkg.Decode b with
    | none => (v, ([], some .decode))
    | some e =>
      if e.id ≠ 0 then
        inflightLoop pkg rest
          { v with
            elems := v.elems ++ [e]
            readCache := Function.update v.readCache e.id (some b)
            current := v.current + 1 }
      else ({ v with inflightDrained := true }, (v.elems, none))

/-- Result of `ReadInflight`. -/
structure InflightResult where
  q : Queue
  s : Redis
  elems : List Elem
  err : Option Err

/-- The method `Queue.ReadInflight`. -/
def ReadInflight (pkg : QueuePkg) (q : Queue) (s : Redis) (maxSize : Nat) : InflightResult :=
  let stop := wrapInt (q.current + toInt maxSize - 1)
  let s1 := s.run (.lrange q.current stop)
  let rs := if s.down then [] else lrange s.list q.current stop
  let err : Option Err := if s.down then some .store else none
  if rs.length = 0 then ⟨{ q with inflightDrained := true }, s1, [], err⟩
  else if err ≠ none then ⟨q, s1, [], err⟩
  else
    let r := inflightLoop pkg rs ⟨q.current, q.readCache, q.inflightDrained, []⟩
    ⟨{ q with
        current := r.1.current
        readCache := r.1.readCache
        inflightDrained := r.1.inflightDrained }, s1, r.2.1, r.2.2⟩

/-! ## Remove -/

/-- Result of `Remove`. -/
structure RemoveResult where
  q : Queue
  s : Redis
  err : Option Err

/-- The method `Queue.Remove`. -/
def Remove (q : Queue) (s : Redis) (pid : PacketID) : RemoveResult :=
  match q.readCache pid with
  | some b =>
    let s1 := s.run (.lrem b)
    if s.down then ⟨q, s1, some .store⟩
    else
      ⟨{ q with
          readCache := Function.update q.readCache pid none
          len := q.len - 1
          current := q.current - 1 }, s1, none⟩
  | none => ⟨q, s, none⟩

/-! ## Definitions used in the statements -/

/-- The read cache after the elements `xs`, found stored under their
encodings, were recorded one after the other. -/
def cacheInflight (pkg : QueuePkg) (c : PacketID → Option Bytes) (xs : List Elem) :
    PacketID → Option Bytes :=
  xs.foldl (fun c e => Function.update c e.id (some (pkg.Encode e))) c

/-- The variables of `Add` after the scan has gone through the elements `W`
(none expired, all with identifier 0) at indices other than 0: the first
at-most-once element is recorded unless an element was recorded before. -/
def scanRest (pkg : QueuePkg) (W : List Elem) (v : AddVars) : AddVars :=
  match v.dropElem, W.find? (fun x => decide (x.qos = 0)) with
  | none, some x => { v with dropBytes := some (pkg.Encode x), dropElem := some x }
  | _, _ => v

/-- The element that `Add` on a full queue discards, by the priority rule of
the drop policy, for the window `W` and the incoming element `e`: `some v` is
the stored element `v`, `none` is the incoming element itself. -/
def dropChoice (pkg : QueuePkg) (now : Nat) (W : List Elem) (e : Elem) : Option Elem :=
  match W.find? (fun x => pkg.ElemExpiry now x) with
  | some v => some v
  | none =>
    match W.find? (fun x => decide (x.qos = 0)) with
    | some v => some v
    | none => if e.qos = 0 then none else W.head?

/-- The value `ob` of a byte variable of `Add` is either unset or a value of
the list `l` that decodes to an element with identifier 0. -/
def ZeroIdIn (pkg : QueuePkg) (l : List Bytes) (ob : Option Bytes) : Prop :=
  ∀ b, ob = some b → b ∈ l ∧ ∃ v, pkg.Decode b = some v ∧ v.id = 0

/-- The elements of `W` that are not expired at time `now`. -/
def nonExpired (pkg : QueuePkg) (now : Nat) (W : List Elem) : List Elem :=
  W.filter (fun w => !pkg.ElemExpiry now w)

/-- The elements of `W` that are expired at time `now`. -/
def expired (pkg : QueuePkg) (now : Nat) (W : List Elem) : List Elem :=
  W.filter (fun w => pkg.ElemExpiry now w)

/-- The at-most-once elements of a list. -/
def atMostOnce (W : List Elem) : List Elem := W.filter (fun w => decide (w.qos = 0))

/-- The acknowledgment-required elements of a list. -/
def ackRequired (W : List Elem) : List Elem := W.filter (fun w => decide (w.qos ≠ 0))

/-- The elements `N` as handed out with the identifiers `ps`: an at-most-once
element keeps its identifier, the acknowledgment-required elements take the
identifiers of `ps` in turn. -/
def assignIds : List Elem → List PacketID → List Elem
  | [], _ => []
  | w :: ws, ps =>
    if w.qos = 0 then w :: assignIds ws ps
    else
      match ps with
      | p :: ps1 => w.SetID p :: assignIds ws ps1
      | [] => w :: assignIds ws []

/-! ## A concrete instance, for evaluating the operations -/

/-- An encoding of elements: the three header fields, then the payload. -/
def simpleEncode (e : Elem) : Bytes := e.id :: e.qos :: e.expiry :: e.payload

/-- The decoding that goes with `simpleEncode`. -/
def simpleDecode : Bytes → Option Elem
  | id :: qos :: expiry :: payload => some ⟨id, qos, expiry, payload⟩
  | _ => none

/-- An instance of the package interface: an element with expiry `0` never
expires, any other expires once `now` is past its expiry. -/
def simplePkg : QueuePkg where
  Encode := simpleEncode
  Decode := simpleDecode
  ElemExpiry := fun now e => decide (e.expiry ≠ 0) && decide (e.expiry < now)

/-- A queue as `New` followed by `Init` leaves it, with capacity `max` and a
drop callback configured. -/
def emptyQueue (max : Int) : Queue :=
  ⟨max, 0, false, false, 0, fun _ => none, true⟩

/-- A healthy connection to a store holding `l`. -/
def store (l : List Bytes) : Redis := ⟨l, false, []⟩

/-- An acknowledgment-required element that never expires. -/
def ackElem (payload : Nat) : Elem := ⟨0, 1, 0, [payload]⟩

/-! ## Evaluation scenarios -/

/-- The queue of scenario 1 after `n` elements were added to an empty store
with capacity 3: `Init`, then `Add` of the acknowledgment-required elements
`1, …, n` at time 10. -/
def scenarioAdds : Nat → AddResult
  | 0 =>
    let r := Init (emptyQueue 3) (store []) false
    ⟨r.q, r.s, r.err, []⟩
  | n + 1 =>
    let r := scenarioAdds n
    Add simplePkg 10 r.q r.s (ackElem (n + 1))

/-- An in-flight element: identifier 5, acknowledgment-required, no expiry. -/
def inflightElem : Elem := ⟨5, 1, 0, [1]⟩

/-- A session resumed on a store holding one in-flight element, on which
`Replace` is called for that identifier before any read. -/
def resumedReplace : ReplaceResult :=
  let r := Init (emptyQueue 3) (store [simpleEncode inflightElem]) false
  Replace simplePkg r.q r.s inflightElem

/-- A full queue whose elements are all dispatched: capacity 1, one in-flight
element stored, `current = len = 1`, phase 1 finished. -/
def allInflightQueue : Queue :=
  ⟨1, 1, false, true, 1, Function.update (fun _ => none) 5 (some (simpleEncode inflightElem)), true⟩

/-- A full queue with an empty pending window and phase 1 not yet finished:
capacity 1, one in-flight element stored, and one `ReadInflight 1` made after
`Init` (it returns the element, so it does not reach the end of the phase). -/
def phaseOneOpen : InflightResult :=
  ReadInflight simplePkg (Init (emptyQueue 1) (store [simpleEncode inflightElem]) false).q
    (Init (emptyQueue 1) (store [simpleEncode inflightElem]) false).s 1

/-- An acknowledgment-required element, not yet dispatched, that expires at
time 5. -/
def expiringElem : Elem := ⟨0, 1, 5, [1]⟩

/-- The queue of scenario 4: two stored elements, none dispatched, phase 1
finished. -/
def drainedQueue : Queue := ⟨3, 2, false, true, 0, fun _ => none, true⟩

/-- The method `Queue.Clean`: it deletes the key and touches no field of the
queue. -/
def Clean (s : Redis) : Redis × Option Err :=
  (s.run .del, if s.down then some .store else none)

/-- An element with the identifier of `inflightElem` and another content. -/
def replacementElem : Elem := ⟨5, 2, 0, [9]⟩

/-- A session resumed on a store holding one in-flight element, on which
`Replace` is called with `replacementElem` before any read, that is with
`current = 0`. -/
def resumedReplaceNew : ReplaceResult :=
  Replace simplePkg (Init (emptyQueue 3) (store [simpleEncode inflightElem]) false).q
    (Init (emptyQueue 3) (store [simpleEncode inflightElem]) false).s replacementElem

/-- A second in-flight element: identifier 6. -/
def inflightElem2 : Elem := ⟨6, 1, 0, [2]⟩

/-- A session resumed on a store holding two in-flight elements. -/
def resumedTwo : InitResult :=
  Init (emptyQueue 3) (store [simpleEncode inflightElem, simpleEncode inflightElem2]) false

/-- A broken connection to a store holding `l`. -/
def brokenStore (l : List Bytes) : Redis := ⟨l, true, []⟩

/-- A queue that was initialised and then closed, before any `ReadInflight`. -/
def closedUndrained : Queue :=
  (Close (Init (emptyQueue 3) (store []) false).q).1

/-- The stored list after the commands `cs` were executed in order on `l`. -/
def execAll (cs : List Cmd) (l : List Bytes) : List Bytes :=
  cs.foldl (fun l c => c.exec l) l

/-- An at-most-once element, not yet dispatched, that never expires. -/
def fireElem : Elem := ⟨0, 0, 0, [3]⟩

/-- An in-flight element with identifier 7. -/
def inflightElem7 : Elem := ⟨7, 1, 0, [4]⟩

/-- An open queue past phase 1 with `current = 2` and `len = 3`, for the store
`mixedStore`. -/
def mixedQueue : Queue := ⟨3, 3, false, true, 2, fun _ => none, true⟩

/-- A store whose positions 0 and 1, before `current = 2`, hold a copy of the
at-most-once element `fireElem` and an in-flight element, and whose position 2,
the pending window, holds `fireElem`. -/
def mixedStore : Redis :=
  store [simpleEncode fireElem, simpleEncode inflightElem7, simpleEncode fireElem]

/-- The stored list `l` holds the encodings of in-flight elements (identifier
not 0) followed by those of pending elements (identifier 0), as a previous
session leaves it. -/
def Shaped (pkg : QueuePkg) (l : List Bytes) : Prop :=
  ∃ X Z : List Elem, l = (X ++ Z).map pkg.Encode ∧ (∀ e ∈ X, e.id ≠ 0) ∧ (∀ e ∈ Z, e.id = 0)

/-- The region invariant of an open queue on a healthy store.  The stored list
is the encodings of `P`, the elements dispatched in this session (`current` of
them, identifiers not 0), then of `X`, the in-flight elements not yet replayed
(none once `inflightDrained` is set), then of `Z`, the pending elements
(identifier 0); and every read-cache entry holds the encoding of an element of
`P` with that identifier. -/
def Regions (pkg : QueuePkg) (q : Queue) (s : Redis) : Prop :=
  ∃ P X Z : List Elem,
    s.list = (P ++ X ++ Z).map pkg.Encode ∧ q.current = (P.length : Int) ∧
      (∀ e ∈ P, e.id ≠ 0) ∧ (∀ e ∈ X, e.id ≠ 0) ∧ (∀ e ∈ Z, e.id = 0) ∧
      (q.inflightDrained = true → X = []) ∧
      (∀ k b, q.readCache k = some b → ∃ e ∈ P, e.id = k ∧ b = pkg.Encode e) ∧
      s.down = false

/-- One call of an operation, from the state `(q, s)` to the state it leaves:
`Init`; `Add` of an element with identifier 0; `ReadInflight` with a limit
from 1 to `2 ^ 63 - 1` whose end index `current + limit - 1` is below `2 ^ 63`,
so that it does not wrap; `Read` with a non-empty batch of identifiers other
than 0; `Replace` when `current ≥ 1`; `Remove`. -/
inductive Step (pkg : QueuePkg) : Queue → Redis → Queue → Redis → Prop where
  | init (q : Queue) (s : Redis) (cleanStart : Bool) :
    Step pkg q s (Init q s cleanStart).q (Init q s cleanStart).s
  | add (now : Nat) (q : Queue) (s : Redis) (e : Elem) (hid : e.id = 0) :
    Step pkg q s (Add pkg now q s e).q (Add pkg now q s e).s
  | readInflight (q : Queue) (s : Redis) (n : Nat) (h1 : 1 ≤ n) (h2 : n < 2 ^ 63)
      (h3 : q.current + (n : Int) ≤ 2 ^ 63) :
    Step pkg q s (ReadInflight pkg q s n).q (ReadInflight pkg q s n).s
  | read (now : Nat) (q : Queue) (s : Redis) (pids : List PacketID) (hne : pids ≠ [])
      (hids : ∀ p ∈ pids, p ≠ 0) :
    Step pkg q s (Read pkg now q s pids).q (Read pkg now q s pids).s
  | replace (q : Queue) (s : Redis) (e : Elem) (hcur : 1 ≤ q.current) :
    Step pkg q s (Replace pkg q s e).q (Replace pkg q s e).s
  | remove (q : Queue) (s : Redis) (pid : PacketID) :
    Step pkg q s (Remove q s pid).q (Remove q s pid).s

/-- The states reachable from an `Init` on a healthy store whose list is
`Shaped`, by any finite sequence of steps. -/
inductive Reachable (pkg : QueuePkg) : Queue → Redis → Prop where
  | start (q : Queue) (s : Redis) (cleanStart : Bool) (hs : Shaped pkg s.list)
      (hup : s.down = false) :
    Reachable pkg (Init q s cleanStart).q (Init q s cleanStart).s
  | step (q : Queue) (s : Redis) (q1 : Queue) (s1 : Redis) (h : Reachable pkg q s)
      (hstep : Step pkg q s q1 s1) :
    Reachable pkg q1 s1

/-- The state after `Init` and `ReadInflight 2` on a store holding one
in-flight element followed by one pending element. -/
def replayedTwo : InflightResult :=
  ReadInflight simplePkg
    (Init (emptyQueue 3) (store [simpleEncode inflightElem, simpleEncode (ackElem 1)]) false).q
    (Init (emptyQueue 3) (store [simpleEncode inflightElem, simpleEncode (ackElem 1)]) false).s 2

/-- A session resumed on three in-flight elements (identifiers 5, 6 and 7), of
which `ReadInflight 2` has replayed the first two: `current = 2`. -/
def replayedTwoOfThree : InflightResult :=
  ReadInflight simplePkg
    (Init (emptyQueue 3) (store [simpleEncode inflightElem, simpleEncode inflightElem2,
      simpleEncode inflightElem7]) false).q
    (Init (emptyQueue 3) (store [simpleEncode inflightElem, simpleEncode inflightElem2,
      simpleEncode inflightElem7]) false).s 2

/-! ## General lemmas -/

theorem lrange_of_nonneg (l : List Bytes) (a b : Nat) :
    lrange l (a : Int) (b : Int) = (l.drop a).take (b + 1 - a) := by
  unfold lrange
  have ha : ¬ ((a : Int) < 0) := by omega
  have hb : ¬ ((b : Int) < 0) := by omega
  simp only [ha, hb, if_false]
  by_cases h1 : (a : Int) > b ∨ (a : Int) ≥ (l.length : Int)
  · rw [if_pos h1]
    rcases h1 with h | h
    · have : b + 1 - a = 0 := by omega
      simp [this]
    · have : l.length ≤ a := by omega
      simp [List.drop_of_length_le this]
  · rw [if_neg h1]
    push_neg at h1
    obtain ⟨h2, h3⟩ := h1
    by_cases h4 : (b : Int) ≥ (l.length : Int)
    · simp only [h4, if_true, Int.toNat_ofNat]
      have e1 : ((l.length : Int) - 1 - (a : Int) + 1).toNat = l.length - a := by omega
      rw [e1, List.take_of_length_le (by simp), List.take_of_length_le (by simp; omega)]
    · simp only [h4, if_false, Int.toNat_ofNat]
      have e1 : ((b : Int) - (a : Int) + 1).toNat = b + 1 - a := by omega
      rw [e1]

theorem lrange_zero (l : List Bytes) (b : Nat) : lrange l 0 (b : Int) = l.take (b + 1) := by
  have h := lrange_of_nonneg l 0 b
  simpa using h

theorem lrange_to_end (l : List Bytes) (a : Nat) (b : Int) (hb : (l.length : Int) ≤ b) :
    lrange l (a : Int) b = l.drop a := by
  have hb0 : (0 : Int) ≤ b := le_trans (by omega) hb
  obtain ⟨n, rfl⟩ := Int.eq_ofNat_of_zero_le hb0
  rw [lrange_of_nonneg]
  apply List.take_of_length_le
  simp only [List.length_drop]
  omega

theorem lrange_subset (l : List Bytes) (a b : Int) : ∀ x ∈ lrange l a b, x ∈ l := by
  have hform : lrange l a b = [] ∨ ∃ n m, lrange l a b = (l.drop n).take m := by
    unfold lrange
    dsimp only
    split_ifs <;> first | exact Or.inl rfl | exact Or.inr ⟨_, _, rfl⟩
  intro x hx
  rcases hform with h | ⟨n, m, h⟩
  · simp [h] at hx
  · rw [h] at hx
    exact List.mem_of_mem_drop (List.mem_of_mem_take hx)

theorem toInt_of_lt (n : Nat) (h : n < 2 ^ 63) : toInt n = (n : Int) := by
  have h1 : n % 2 ^ 64 = n := Nat.mod_eq_of_lt (by omega)
  unfold toInt
  simp only [h1, h, if_true]
  rfl

theorem wrapInt_of_range (z : Int) (h1 : -2 ^ 63 ≤ z) (h2 : z < 2 ^ 63) : wrapInt z = z := by
  unfold wrapInt
  omega

theorem simplePkg_roundTrip : simplePkg.RoundTrip := by
  intro e
  cases e
  rfl

/-! ## Capacity (C1) -/

/-- C1 (capacity invariant, refuted on the code): with `max = 3`, after `Init`
on an empty store and the `Add` of four acknowledgment-required elements, the
third call leaves `len = 3` and the fourth, which evicts the oldest element,
leaves `len = 4 > max` although the stored list still has three elements. -/
theorem Add_evicting_len_exceeds_max :
    (scenarioAdds 3).q.len = 3 ∧ (scenarioAdds 4).q.len = 4 ∧
      (scenarioAdds 4).q.max = 3 ∧
      (scenarioAdds 4).s.list = [simpleEncode (ackElem 2), simpleEncode (ackElem 3),
        simpleEncode (ackElem 4)] ∧
      (scenarioAdds 4).notified = [ackElem 1] := by
  decide

/-! ## Inflight replay (C2) -/

theorem inflightLoop_cons_inflight (pkg : QueuePkg) (hrt : pkg.RoundTrip) (x : Elem)
    (hx : x.id ≠ 0) (rest : List Bytes) (v : InflightVars) :
    inflightLoop pkg (pkg.Encode x :: rest) v =
      inflightLoop pkg rest
        ⟨v.current + 1, Function.update v.readCache x.id (some (pkg.Encode x)),
          v.inflightDrained, v.elems ++ [x]⟩ := by
  simp [inflightLoop, hrt x, hx]

theorem inflightLoop_prefix (pkg : QueuePkg) (hrt : pkg.RoundTrip) (xs : List Elem)
    (hx : ∀ e ∈ xs, e.id ≠ 0) (rest : List Bytes) (v : InflightVars) :
    inflightLoop pkg (xs.map pkg.Encode ++ rest) v =
      inflightLoop pkg rest
        ⟨v.current + xs.length, cacheInflight pkg v.readCache xs, v.inflightDrained,
          v.elems ++ xs⟩ := by
  induction xs generalizing v with
  | nil => simp [cacheInflight]
  | cons x xs ih =>
    have hx0 : x.id ≠ 0 := hx x (by simp)
    have hxs : ∀ e ∈ xs, e.id ≠ 0 := fun e he => hx e (by simp [he])
    rw [List.map_cons, List.cons_append, inflightLoop_cons_inflight pkg hrt x hx0, ih hxs]
    have hc : v.current + 1 + (xs.length : Int) = v.current + ((x :: xs).length : Int) := by
      simp only [List.length_cons]; push_cast; ring
    simp only [hc, cacheInflight, List.foldl_cons, List.append_assoc, List.singleton_append]

/-- C2, counterexample (k = 1, m = 0): after `Init` on a store holding one
in-flight element and nothing else, `ReadInflight 2` returns that element and
leaves `current = 1`, but `inflightDrained` is still false. -/
theorem ReadInflight_all_inflight_not_drained :
    (ReadInflight simplePkg
        (Init (emptyQueue 3) (store [simpleEncode inflightElem]) false).q
        (Init (emptyQueue 3) (store [simpleEncode inflightElem]) false).s 2).elems
        = [inflightElem] ∧
      (ReadInflight simplePkg
        (Init (emptyQueue 3) (store [simpleEncode inflightElem]) false).q
        (Init (emptyQueue 3) (store [simpleEncode inflightElem]) false).s 2).q.current = 1 ∧
      (ReadInflight simplePkg
        (Init (emptyQueue 3) (store [simpleEncode inflightElem]) false).q
        (Init (emptyQueue 3) (store [simpleEncode inflightElem]) false).s 2).q.inflightDrained
        = false := by
  decide

/-- C2, amended (inflight replay): on a healthy store holding the encodings of
`xs` (identifiers non-zero) followed by those of `ys` (identifier 0), with
`current = 0`, `ReadInflight (|xs| + 1)` returns exactly `xs` in stored order
with no error, leaves `current = |xs|` and the stored list unchanged; it sets
`inflightDrained` when `ys` is not empty or `xs` is empty, and leaves the flag
as it was when `xs` is not empty and `ys` is empty. -/
theorem ReadInflight_replay (pkg : QueuePkg) (q : Queue) (s : Redis) (xs ys : List Elem)
    (hrt : pkg.RoundTrip) (hlist : s.list = (xs ++ ys).map pkg.Encode)
    (hup : s.down = false) (hcur : q.current = 0)
    (hx : ∀ e ∈ xs, e.id ≠ 0) (hy : ∀ e ∈ ys, e.id = 0) (hk : xs.length + 1 < 2 ^ 63) :
    (ReadInflight pkg q s (xs.length + 1)).elems = xs ∧
      (ReadInflight pkg q s (xs.length + 1)).err = none ∧
      (ReadInflight pkg q s (xs.length + 1)).q.current = (xs.length : Int) ∧
      (ReadInflight pkg q s (xs.length + 1)).s.list = s.list ∧
      (xs = [] ∨ ys ≠ [] → (ReadInflight pkg q s (xs.length + 1)).q.inflightDrained = true) ∧
      (xs ≠ [] ∧ ys = [] →
        (ReadInflight pkg q s (xs.length + 1)).q.inflightDrained = q.inflightDrained) := by
  have hstop : wrapInt (q.current + toInt (xs.length + 1) - 1) = ((xs.length : Nat) : Int) := by
    have h0 : q.current + toInt (xs.length + 1) - 1 = ((xs.length : Nat) : Int) := by
      rw [toInt_of_lt _ hk, hcur]; push_cast; ring
    rw [h0]
    exact wrapInt_of_range _ (by omega) (by omega)
  have hrs : lrange s.list q.current (wrapInt (q.current + toInt (xs.length + 1) - 1)) =
      xs.map pkg.Encode ++ (ys.take 1).map pkg.Encode := by
    rw [hstop, hcur, lrange_zero, hlist, List.map_append, List.take_append_eq_append_take]
    simp [List.map_take]
  unfold ReadInflight
  simp only [hup, Bool.false_eq_true, if_false, hrs, Redis.run, Cmd.exec]
  cases ys with
  | nil =>
    cases xs with
    | nil => simp [hcur]
    | cons x xs =>
      have h := inflightLoop_prefix pkg hrt (x :: xs) hx []
        ⟨0, q.readCache, q.inflightDrained, []⟩
      simp only [List.append_nil] at h
      simp only [hcur, List.take_nil, List.map_nil, List.append_nil, h]
      simp [inflightLoop]
  | cons y ys =>
    have hy0 : y.id = 0 := hy y (by simp)
    have h := inflightLoop_prefix pkg hrt xs hx [pkg.Encode y]
      ⟨0, q.readCache, q.inflightDrained, []⟩
    have h1 : List.take 1 (y :: ys) = [y] := rfl
    simp only [hcur, h1, List.map_cons, List.map_nil, h]
    simp [inflightLoop, hrt y, hy0]

/-- Witness of C2: scenario 3, the stored list `[id = 5, id = 0]`. -/
theorem ReadInflight_replay_witness :
    (ReadInflight simplePkg (emptyQueue 3)
        (store [simpleEncode inflightElem, simpleEncode (ackElem 1)]) 2).elems = [inflightElem] ∧
      (ReadInflight simplePkg (emptyQueue 3)
        (store [simpleEncode inflightElem, simpleEncode (ackElem 1)]) 2).q.inflightDrained
        = true :=
  have h := ReadInflight_replay simplePkg (emptyQueue 3)
    (store [simpleEncode inflightElem, simpleEncode (ackElem 1)]) [inflightElem] [ackElem 1]
    simplePkg_roundTrip rfl rfl rfl (by decide) (by decide) (by decide)
  ⟨h.1, h.2.2.2.2.1 (Or.inr (by decide))⟩

/-! ## Cursor ordering (C3) -/

/-- C3 (ordering invariant, refuted on the code): after `Init` on a store
holding one in-flight element with identifier 5, `Replace` of that identifier
(scanning index 0 although `current = 0`) creates a cache entry, and the
`Remove 5` that follows leaves `current = -1` and `len = 0`. -/
theorem Remove_after_Replace_current_negative :
    resumedReplace.replaced = true ∧ resumedReplace.q.current = 0 ∧
      (Remove resumedReplace.q resumedReplace.s 5).err = none ∧
      (Remove resumedReplace.q resumedReplace.s 5).q.current = -1 ∧
      (Remove resumedReplace.q resumedReplace.s 5).q.len = 0 := by
  decide

/-! ## Protocol gate (C4) -/

/-- C4 (protocol gate): whenever `inflightDrained` is false, `Read` ends in the
protocol panic, issues no store command and leaves the queue fields and the
store as they were. -/
theorem Read_not_drained_panics (pkg : QueuePkg) (now : Nat) (q : Queue) (s : Redis)
    (pids : List PacketID) (h : q.inflightDrained = false) :
    Read pkg now q s pids = ⟨q, s, .protocolPanic⟩ := by
  simp [Read, h]

/-- Witness of C4: `Read` right after `Init`. -/
theorem Read_not_drained_panics_witness :
    (Init (emptyQueue 3) (store []) false).q.inflightDrained = false ∧
      Read simplePkg 10 (Init (emptyQueue 3) (store []) false).q
          (Init (emptyQueue 3) (store []) false).s [7, 8] =
        ⟨(Init (emptyQueue 3) (store []) false).q,
          (Init (emptyQueue 3) (store []) false).s, .protocolPanic⟩ :=
  ⟨by decide, Read_not_drained_panics simplePkg 10 _ _ [7, 8] (by decide)⟩

/-! ## Idempotent acknowledgment (C5) -/

/-- C5 (idempotent ack): a second `Remove` of the same identifier right after
the first leaves the queue fields (`len`, `current`, read cache and the rest)
and the stored list as the first call left them; and `Remove` of an identifier
that is not a key of the read cache returns no error and changes nothing. -/
theorem Remove_idempotent (q : Queue) (s : Redis) (pid : PacketID) :
    ((Remove (Remove q s pid).q (Remove q s pid).s pid).q = (Remove q s pid).q ∧
      (Remove (Remove q s pid).q (Remove q s pid).s pid).s.list = (Remove q s pid).s.list) ∧
    (q.readCache pid = none → Remove q s pid = ⟨q, s, none⟩) := by
  refine ⟨?_, fun h => by simp [Remove, h]⟩
  cases hc : q.readCache pid with
  | none => simp [Remove, hc]
  | some b =>
    cases hd : s.down with
    | true => simp [Remove, hc, hd, Redis.run]
    | false => simp [Remove, hc, hd, Redis.run]

/-- Witness of C5: an identifier unknown to a fresh queue. -/
theorem Remove_idempotent_witness :
    (emptyQueue 3).readCache 9 = none ∧
      Remove (emptyQueue 3) (store []) 9 = ⟨emptyQueue 3, store [], none⟩ :=
  ⟨rfl, (Remove_idempotent (emptyQueue 3) (store []) 9).2 rfl⟩

/-! ## Drop policy (C6) -/

theorem addScan_rest (pkg : QueuePkg) (now : Nat) (hrt : pkg.RoundTrip) (W : List Elem)
    (hW : ∀ x ∈ W, x.id = 0) (hne : W.find? (fun x => pkg.ElemExpiry now x) = none)
    (i : Nat) (hi : i ≠ 0) (v : AddVars) :
    addScan pkg now i (W.map pkg.Encode) v = (scanRest pkg W v, .finished) := by
  induction W generalizing i v with
  | nil =>
    cases v with
    | mk db de fb fe => cases de <;> simp [addScan, scanRest]
  | cons x W ih =>
    have hx0 : x.id = 0 := hW x (by simp)
    have hW1 : ∀ y ∈ W, y.id = 0 := fun y hy => hW y (by simp [hy])
    have hex : pkg.ElemExpiry now x = false := by
      cases h : pkg.ElemExpiry now x with
      | false => rfl
      | true => simp [List.find?, h] at hne
    have hne1 : W.find? (fun x => pkg.ElemExpiry now x) = none := by
      simpa [List.find?, hex] using hne
    simp only [List.map_cons, addScan, hrt x, hx0, hi, hex, if_true, if_false,
      Bool.false_eq_true]
    rw [ih hW1 hne1 (i + 1) (by omega)]
    cases v with
    | mk db de fb fe =>
      cases de with
      | some d => simp [scanRest]
      | none =>
        by_cases hq : x.qos = 0
        · simp [scanRest, hq, List.find?]
        · simp [scanRest, hq, List.find?]

theorem addScan_expired (pkg : QueuePkg) (now : Nat) (hrt : pkg.RoundTrip) (W : List Elem)
    (hW : ∀ x ∈ W, x.id = 0) (x : Elem)
    (hx : W.find? (fun x => pkg.ElemExpiry now x) = some x) (i : Nat) (v : AddVars) :
    (addScan pkg now i (W.map pkg.Encode) v).2 = .returned none ∧
      (addScan pkg now i (W.map pkg.Encode) v).1.dropBytes = some (pkg.Encode x) ∧
      (addScan pkg now i (W.map pkg.Encode) v).1.dropElem = some x := by
  induction W generalizing i v with
  | nil => simp at hx
  | cons y W ih =>
    have hy0 : y.id = 0 := hW y (by simp)
    have hW1 : ∀ z ∈ W, z.id = 0 := fun z hz => hW z (by simp [hz])
    cases hex : pkg.ElemExpiry now y with
    | true =>
      have hxy : y = x := by simpa [List.find?, hex] using hx
      subst hxy
      simp [addScan, hrt y, hy0, hex]
    | false =>
      have hx1 : W.find? (fun x => pkg.ElemExpiry now x) = some x := by
        simpa [List.find?, hex] using hx
      simp only [List.map_cons, addScan, hrt y, hy0, hex, if_true, Bool.false_eq_true,
        if_false]
      exact ih hW1 hx1 _ _

/-- C6, counterexample: capacity 1, one in-flight element stored, `current =
len = 1` and `inflightDrained` false.  The queue is full and not in the case
(`inflightDrained` and `current ≥ len`); its window `[1, 1)` is empty, so it
holds no expired and no at-most-once element, and the incoming element is
acknowledgment-required: the fourth rule of the claim applies, but there is no
element at the start of the window.  `Add` discards the incoming element: the
stored list is unchanged and the callback receives the incoming element. -/
theorem Add_empty_window_drops_incoming :
    phaseOneOpen.q.len ≥ phaseOneOpen.q.max ∧
      ¬ (phaseOneOpen.q.inflightDrained = true ∧ phaseOneOpen.q.current ≥ phaseOneOpen.q.len) ∧
      phaseOneOpen.q.current = 1 ∧ phaseOneOpen.q.len = 1 ∧
      phaseOneOpen.s.list = [simpleEncode inflightElem] ∧
      (ackElem 2).qos ≠ 0 ∧
      (Add simplePkg 10 phaseOneOpen.q phaseOneOpen.s (ackElem 2)).s.list =
        phaseOneOpen.s.list ∧
      (Add simplePkg 10 phaseOneOpen.q phaseOneOpen.s (ackElem 2)).notified = [ackElem 2] := by
  decide

/-- C6, amended (drop policy of `Add` on a full queue): on a healthy store
holding the encodings of `P ++ W`, no longer than `len`, with `current = |P|`,
`len ≥ max`, not (`inflightDrained` and `current ≥ len`) and every element of
the window `W` with identifier 0, the element discarded is `dropChoice`: the
first expired element of `W`, else the first at-most-once element of `W`, else
the incoming `e` if `e` is at-most-once, else the first element of `W`, else
(empty window) `e` itself.  When a stored `v` is discarded the stored list is
the old list with the first occurrence of the encoding of `v` removed and the
encoding of `e` appended, and the callback receives `v`; when `e` is discarded
the stored list is unchanged and the callback receives `e`. -/
theorem Add_full_drop_policy (pkg : QueuePkg) (now : Nat) (q : Queue) (s : Redis) (e : Elem)
    (P W : List Elem) (hrt : pkg.RoundTrip)
    (hlist : s.list = (P ++ W).map pkg.Encode) (hup : s.down = false)
    (hfull : q.len ≥ q.max) (hcase : ¬ (q.inflightDrained = true ∧ q.current ≥ q.len))
    (hcur : q.current = (P.length : Int)) (hlen : ((P ++ W).length : Int) ≤ q.len)
    (hW : ∀ x ∈ W, x.id = 0) :
    match dropChoice pkg now W e with
    | some v =>
      (Add pkg now q s e).s.list = s.list.erase (pkg.Encode v) ++ [pkg.Encode e] ∧
        (Add pkg now q s e).notified = q.notify v
    | none =>
      (Add pkg now q s e).s.list = s.list ∧ (Add pkg now q s e).notified = q.notify e := by
  have hrs : lrange s.list q.current q.len = W.map pkg.Encode := by
    rw [hcur, lrange_to_end _ _ _ (by rw [hlist]; simpa using hlen), hlist]
    simp
  unfold Add
  simp only [hfull, hcase, hup, hrs, if_true, if_false, Bool.false_eq_true]
  cases hexp : W.find? (fun x => pkg.ElemExpiry now x) with
  | some x =>
    obtain ⟨h1, h2, h3⟩ := addScan_expired pkg now hrt W hW x hexp 0 ⟨none, none, none, none⟩
    cases hr : addScan pkg now 0 (W.map pkg.Encode) ⟨none, none, none, none⟩ with
    | mk v ex =>
      rw [hr] at h1 h2 h3
      simp only at h1 h2 h3
      subst h1
      simp [dropChoice, hexp, addDeferred, h2, h3, Redis.runAll, Redis.run, hup, Cmd.exec]
  | none =>
    cases W with
    | nil =>
      by_cases hq : e.qos = 0 <;>
        simp [dropChoice, addScan, addDeferred, hq, Redis.run, hup, Cmd.exec]
    | cons x W =>
      have hx0 : x.id = 0 := hW x (by simp)
      have hW1 : ∀ y ∈ W, y.id = 0 := fun y hy => hW y (by simp [hy])
      have hex : pkg.ElemExpiry now x = false := by
        cases h : pkg.ElemExpiry now x with
        | false => rfl
        | true => simp [List.find?, h] at hexp
      have hne1 : W.find? (fun x => pkg.ElemExpiry now x) = none := by
        simpa [List.find?, hex] using hexp
      simp only [List.map_cons, addScan, hrt x, hx0, hex, if_true, if_false,
        Bool.false_eq_true]
      rw [addScan_rest pkg now hrt W hW1 hne1 (0 + 1) (by omega)]
      by_cases hq : x.qos = 0
      · simp [dropChoice, hex, hne1, hq, List.find?, scanRest, addDeferred, Redis.runAll,
          Redis.run, hup, Cmd.exec]
      · cases hf : W.find? (fun x => decide (x.qos = 0)) with
        | some y =>
          simp [dropChoice, hex, hne1, hq, List.find?, hf, scanRest, addDeferred,
            Redis.runAll, Redis.run, hup, Cmd.exec]
        | none =>
          by_cases hqe : e.qos = 0 <;>
            simp [dropChoice, hex, hne1, hq, hqe, List.find?, hf, scanRest, addDeferred,
              Redis.runAll, Redis.run, hup, Cmd.exec]

/-- Witness of C6: scenario 1, the full queue `[A, B, C]` and `Add D`. -/
theorem Add_full_drop_policy_witness :
    (Add simplePkg 10 (scenarioAdds 3).q (scenarioAdds 3).s (ackElem 4)).s.list =
        (scenarioAdds 3).s.list.erase (simpleEncode (ackElem 1)) ++ [simpleEncode (ackElem 4)] ∧
      (Add simplePkg 10 (scenarioAdds 3).q (scenarioAdds 3).s (ackElem 4)).notified =
        [ackElem 1] :=
  Add_full_drop_policy simplePkg 10 (scenarioAdds 3).q (scenarioAdds 3).s (ackElem 4)
    [] [ackElem 1, ackElem 2, ackElem 3] simplePkg_roundTrip (by decide) (by decide)
    (by decide) (by decide) (by decide) (by decide) (by decide)

/-! ## Add below capacity (C7) -/

/-- C7 (Add below capacity): with `len < max` and a healthy store, `Add e`
issues the single command `rpush` of the encoding of `e`, so the stored list is
the old one followed by that encoding; `len` grows by one, every other queue
field stays, the drop callback is not called and no error is returned. -/
theorem Add_below_capacity (pkg : QueuePkg) (now : Nat) (q : Queue) (s : Redis) (e : Elem)
    (hlen : q.len < q.max) (hup : s.down = false) :
    (Add pkg now q s e).s.list = s.list ++ [pkg.Encode e] ∧
      (Add pkg now q s e).s.log = s.log ++ [.rpush (pkg.Encode e)] ∧
      (Add pkg now q s e).q = { q with len := q.len + 1 } ∧
      (Add pkg now q s e).notified = [] ∧
      (Add pkg now q s e).err = none := by
  have h : ¬ q.len ≥ q.max := not_le.mpr hlen
  simp [Add, h, addDeferred, Redis.run, hup, Cmd.exec]

/-- Witness of C7: the first `Add` of scenario 1. -/
theorem Add_below_capacity_witness :
    (scenarioAdds 0).q.len < (scenarioAdds 0).q.max ∧ (scenarioAdds 0).s.down = false ∧
      (Add simplePkg 10 (scenarioAdds 0).q (scenarioAdds 0).s (ackElem 1)).s.list =
        (scenarioAdds 0).s.list ++ [simplePkg.Encode (ackElem 1)] :=
  ⟨by decide, by decide,
    (Add_below_capacity simplePkg 10 _ _ (ackElem 1) (by decide) (by decide)).1⟩

/-! ## Add with no pending region (C8) -/

/-- C8 (Add with no pending region): with `len ≥ max`, `inflightDrained` set and
`current ≥ len`, `Add e` leaves the queue fields and the store (stored list and
command log: no command is issued) unchanged, and the drop callback is called
exactly once, with `e`, when one is configured (not at all otherwise). -/
theorem Add_no_pending_region (pkg : QueuePkg) (now : Nat) (q : Queue) (s : Redis) (e : Elem)
    (hfull : q.len ≥ q.max) (hdr : q.inflightDrained = true) (hcur : q.current ≥ q.len) :
    (Add pkg now q s e).q = q ∧ (Add pkg now q s e).s = s ∧
      (q.onMsgDropped = true → (Add pkg now q s e).notified = [e]) ∧
      (q.onMsgDropped = false → (Add pkg now q s e).notified = []) := by
  simp [Add, hfull, hdr, hcur, addDeferred, Queue.notify]

/-- Witness of C8: `Add` on `allInflightQueue`. -/
theorem Add_no_pending_region_witness :
    allInflightQueue.len ≥ allInflightQueue.max ∧ allInflightQueue.inflightDrained = true ∧
      allInflightQueue.current ≥ allInflightQueue.len ∧
      (Add simplePkg 10 allInflightQueue (store [simpleEncode inflightElem]) (ackElem 2)).s =
        store [simpleEncode inflightElem] :=
  ⟨by decide, by decide, by decide,
    (Add_no_pending_region simplePkg 10 allInflightQueue (store [simpleEncode inflightElem])
      (ackElem 2) (by decide) (by decide) (by decide)).2.1⟩

/-! ## In-flight elements are never discarded (C9) -/

theorem addScan_zeroId (pkg : QueuePkg) (now : Nat) (l : List Bytes) (rs : List Bytes)
    (hsub : ∀ b ∈ rs, b ∈ l) (i : Nat) (v : AddVars)
    (hd : ZeroIdIn pkg l v.dropBytes) (hf : ZeroIdIn pkg l v.frontBytes) :
    ZeroIdIn pkg l (addScan pkg now i rs v).1.dropBytes ∧
      ZeroIdIn pkg l (addScan pkg now i rs v).1.frontBytes := by
  induction rs generalizing i v with
  | nil => exact ⟨hd, hf⟩
  | cons b rest ih =>
    have hb : b ∈ l := hsub b (by simp)
    have hrest : ∀ c ∈ rest, c ∈ l := fun c hc => hsub c (by simp [hc])
    cases hdec : pkg.Decode b with
    | none => simpa [addScan, hdec] using ⟨hd, hf⟩
    | some x =>
      by_cases hx : x.id = 0
      · have hnew : ZeroIdIn pkg l (some b) := by
          intro c hc
          cases hc
          exact ⟨hb, x, hdec, hx⟩
        by_cases hi : i = 0 <;> cases hex : pkg.ElemExpiry now x <;>
          by_cases hq : (x.qos = 0 ∧ v.dropElem = none) <;>
          simp only [addScan, hdec, hx, hi, hex, hq, if_true, if_false, Bool.false_eq_true,
            and_self] <;>
          first
          | exact hnew
          | exact ⟨hnew, hnew⟩
          | exact ⟨hnew, hf⟩
          | exact ih hrest _ _ hnew hnew
          | exact ih hrest _ _ hnew hf
          | exact ih hrest _ _ hd hnew
          | exact ih hrest _ _ hd hf
      · simp only [addScan, hdec, hx, if_false]
        exact ih hrest _ _ hd hf

theorem addDeferred_list (pkg : QueuePkg) (q : Queue) (s s1 : Redis) (e : Elem) (drop : Bool)
    (v : AddVars) (err : Option Err) (hs : s1.list = s.list)
    (hv : ZeroIdIn pkg s.list v.dropBytes) :
    (addDeferred pkg q s1 e drop v err).s.list = s.list ∨
      (addDeferred pkg q s1 e drop v err).s.list = s.list ++ [pkg.Encode e] ∨
      ∃ b x, b ∈ s.list ∧ pkg.Decode b = some x ∧ x.id = 0 ∧
        (addDeferred pkg q s1 e drop v err).s.list = s.list.erase b ++ [pkg.Encode e] := by
  cases hdn : s1.down with
  | true =>
    left
    unfold addDeferred
    cases drop <;> cases hdb : v.dropBytes <;> simp [Redis.runAll, Redis.run, hdn, hs]
  | false =>
    cases drop with
    | false =>
      right; left
      simp [addDeferred, Redis.run, hdn, hs, Cmd.exec]
    | true =>
      cases hdb : v.dropBytes with
      | none => left; simp [addDeferred, hdb, hs]
      | some b =>
        obtain ⟨hb, x, hx, hx0⟩ := hv b hdb
        right; right
        exact ⟨b, x, hb, hx, hx0, by
          simp [addDeferred, hdb, Redis.runAll, Redis.run, hdn, hs, Cmd.exec]⟩

theorem addScan_no_zero (pkg : QueuePkg) (now : Nat) (rs : List Bytes)
    (h : ∀ b ∈ rs, ∀ x, pkg.Decode b = some x → x.id ≠ 0) (i : Nat) (v : AddVars) :
    addScan pkg now i rs v = (v, .finished) ∨
      addScan pkg now i rs v = (v, .returned (some .decode)) := by
  induction rs generalizing i with
  | nil => left; rfl
  | cons b rest ih =>
    have hrest : ∀ c ∈ rest, ∀ x, pkg.Decode c = some x → x.id ≠ 0 :=
      fun c hc => h c (by simp [hc])
    cases hdec : pkg.Decode b with
    | none => right; simp [addScan, hdec]
    | some x =>
      have hx : x.id ≠ 0 := h b (by simp) x hdec
      simp only [addScan, hdec, hx, if_false]
      exact ih hrest _

/-- C9 (`Add` never discards an in-flight element): for every queue state,
store and incoming element `e`, the stored list after `Add` is the old list, or
the old list followed by the encoding of `e`, or the old list with the first
occurrence of a stored value `b` removed and the encoding of `e` appended,
where `b` decodes to an element with identifier 0.  And when the queue is full
and the range that `Add` scans holds no element with identifier 0, the stored
list is unchanged and the element handed to the drop callback is `e`. -/
theorem Add_never_discards_inflight (pkg : QueuePkg) (now : Nat) (q : Queue) (s : Redis)
    (e : Elem) :
    ((Add pkg now q s e).s.list = s.list ∨
      (Add pkg now q s e).s.list = s.list ++ [pkg.Encode e] ∨
      ∃ b x, b ∈ s.list ∧ pkg.Decode b = some x ∧ x.id = 0 ∧
        (Add pkg now q s e).s.list = s.list.erase b ++ [pkg.Encode e]) ∧
    (q.len ≥ q.max →
      (∀ b ∈ lrange s.list q.current q.len, ∀ x, pkg.Decode b = some x → x.id ≠ 0) →
      (Add pkg now q s e).s.list = s.list ∧ (Add pkg now q s e).notified = q.notify e) := by
  have hnone : ZeroIdIn pkg s.list (none : Option Bytes) := by
    intro b hb
    cases hb
  have hrun : ∀ c : Cmd, c = .lrange q.current q.len → (s.run c).list = s.list := by
    intro c hc
    subst hc
    cases hdn : s.down <;> simp [Redis.run, hdn, Cmd.exec]
  constructor
  · unfold Add
    by_cases hfull : q.len ≥ q.max
    · simp only [hfull, if_true]
      split
      · exact addDeferred_list pkg q s s e true _ none rfl hnone
      · split
        · exact addDeferred_list pkg q s _ e true _ _ (hrun _ rfl) hnone
        · have hinv := addScan_zeroId pkg now s.list (lrange s.list q.current q.len)
            (lrange_subset _ _ _) 0 ⟨none, none, none, none⟩ hnone hnone
          cases hr : addScan pkg now 0 (lrange s.list q.current q.len) ⟨none, none, none, none⟩ with
          | mk v ex =>
            rw [hr] at hinv
            cases ex with
            | returned err => exact addDeferred_list pkg q s _ e true v err (hrun _ rfl) hinv.1
            | finished =>
              simp only
              split
              · exact addDeferred_list pkg q s _ e true v none (hrun _ rfl) hinv.1
              · split
                · exact addDeferred_list pkg q s _ e true v none (hrun _ rfl) hinv.1
                · apply addDeferred_list pkg q s _ e true _ none (hrun _ rfl)
                  split
                  · exact hinv.2
                  · exact hinv.1
    · simp only [hfull, if_false]
      exact addDeferred_list pkg q s s e false _ none rfl hnone
  · intro hfull hwin
    unfold Add
    simp only [hfull, if_true]
    split
    · simp [addDeferred]
    · split
      · simp [addDeferred, hrun]
      · rcases addScan_no_zero pkg now _ hwin 0 ⟨none, none, none, none⟩ with h | h
        · rw [h]
          by_cases hq : e.qos = 0 <;> simp [addDeferred, hrun, hq]
        · rw [h]
          simp [addDeferred, hrun]

/-- Witness of C9: capacity 1, one in-flight element stored, `current = 0` and
`inflightDrained` false right after `Init`. -/
theorem Add_never_discards_inflight_witness :
    (Init (emptyQueue 1) (store [simpleEncode inflightElem]) false).q.len ≥
        (Init (emptyQueue 1) (store [simpleEncode inflightElem]) false).q.max ∧
      (Add simplePkg 10 (Init (emptyQueue 1) (store [simpleEncode inflightElem]) false).q
        (Init (emptyQueue 1) (store [simpleEncode inflightElem]) false).s (ackElem 2)).s.list =
        [simpleEncode inflightElem] :=
  ⟨by decide,
    ((Add_never_discards_inflight simplePkg 10
      (Init (emptyQueue 1) (store [simpleEncode inflightElem]) false).q
      (Init (emptyQueue 1) (store [simpleEncode inflightElem]) false).s (ackElem 2)).2
      (by decide)
      (by
        have hw : lrange (Init (emptyQueue 1) (store [simpleEncode inflightElem]) false).s.list
            (Init (emptyQueue 1) (store [simpleEncode inflightElem]) false).q.current
            (Init (emptyQueue 1) (store [simpleEncode inflightElem]) false).q.len =
            [simpleEncode inflightElem] := by decide
        intro b hb x hx
        rw [hw, List.mem_singleton] at hb
        subst hb
        cases hx
        decide)).1⟩

/-! ## Read (C10) -/

theorem assignIds_eraseId (N : List Elem) (ps : List PacketID) :
    (assignIds N ps).map (fun w => w.SetID 0) = N.map (fun w => w.SetID 0) := by
  induction N generalizing ps with
  | nil => rfl
  | cons w ws ih =>
    by_cases hq : w.qos = 0
    · simp [assignIds, hq, ih]
    · cases ps with
      | nil => simp [assignIds, hq, ih]
      | cons p ps =>
        have h := ih ps
        simp only [Elem.SetID] at h
        simp [assignIds, hq, Elem.SetID, h]

theorem assignIds_atMostOnce (N : List Elem) (ps : List PacketID) :
    atMostOnce (assignIds N ps) = atMostOnce N := by
  induction N generalizing ps with
  | nil => rfl
  | cons w ws ih =>
    unfold atMostOnce at ih ⊢
    by_cases hq : w.qos = 0
    · simp [assignIds, hq, ih]
    · cases ps with
      | nil => simp [assignIds, hq, ih]
      | cons p ps => simp [assignIds, hq, ih, Elem.SetID]

theorem assignIds_ackRequired (N : List Elem) (ps : List PacketID)
    (h : (ackRequired N).length ≤ ps.length) :
    (ackRequired (assignIds N ps)).map (fun w => w.id) = ps.take (ackRequired N).length := by
  induction N generalizing ps with
  | nil => simp [assignIds, ackRequired]
  | cons w ws ih =>
    unfold ackRequired at ih h ⊢
    by_cases hq : w.qos = 0
    · simp only [assignIds, hq, if_true, List.filter_cons, ne_eq, not_true_eq_false,
        decide_False, Bool.false_eq_true, if_false] at h ⊢
      exact ih ps h
    · cases ps with
      | nil => simp [hq] at h
      | cons p ps =>
        have h1 : (ws.filter (fun w => decide (w.qos ≠ 0))).length ≤ ps.length := by
          simpa [hq] using h
        have h2 := ih ps h1
        simp only [ne_eq, decide_not] at h2
        simp [assignIds, hq, Elem.SetID, h2]

theorem readLoop_spec (pkg : QueuePkg) (now : Nat) (pids : List PacketID) (hrt : pkg.RoundTrip)
    (W : List Elem) (v : ReadVars)
    (hk : v.pflag + (ackRequired (nonExpired pkg now W)).length ≤ pids.length) :
    (readLoop pkg now pids (W.map pkg.Encode) v).2 = .finished ∧
      (readLoop pkg now pids (W.map pkg.Encode) v).1.elems =
        v.elems ++ assignIds (nonExpired pkg now W) (pids.drop v.pflag) ∧
      (readLoop pkg now pids (W.map pkg.Encode) v).1.len =
        v.len - (((expired pkg now W).length + (atMostOnce (nonExpired pkg now W)).length : Nat)
          : Int) ∧
      (readLoop pkg now pids (W.map pkg.Encode) v).1.current =
        v.current + ((ackRequired (nonExpired pkg now W)).length : Int) ∧
      (∀ id, id ∉ (pids.drop v.pflag).take (ackRequired (nonExpired pkg now W)).length →
        (readLoop pkg now pids (W.map pkg.Encode) v).1.readCache id = v.readCache id) := by
  induction W generalizing v with
  | nil => simp [readLoop, nonExpired, expired, atMostOnce, ackRequired, assignIds]
  | cons w W ih =>
    cases hex : pkg.ElemExpiry now w with
    | true =>
      have hne : nonExpired pkg now (w :: W) = nonExpired pkg now W := by
        simp [nonExpired, hex]
      have hexp : expired pkg now (w :: W) = w :: expired pkg now W := by
        simp [expired, hex]
      rw [hne] at hk ⊢
      rw [hexp]
      simp only [List.map_cons, readLoop, hrt w, hex, if_true]
      obtain ⟨h1, h2, h3, h4, h5⟩ := ih
        ⟨v.len - 1, v.current, v.readCache, v.pflag, v.elems,
          v.sent ++ [.lrem (pkg.Encode w)]⟩ hk
      refine ⟨h1, h2, ?_, h4, h5⟩
      rw [h3]
      simp only [List.length_cons]
      push_cast
      ring
    | false =>
      have hexp : expired pkg now (w :: W) = expired pkg now W := by
        simp [expired, hex]
      have hne : nonExpired pkg now (w :: W) = w :: nonExpired pkg now W := by
        simp [nonExpired, hex]
      rw [hexp]
      by_cases hq : w.qos = 0
      · have hack : ackRequired (nonExpired pkg now (w :: W)) =
            ackRequired (nonExpired pkg now W) := by
          simp [hne, ackRequired, hq]
        have hamo : atMostOnce (nonExpired pkg now (w :: W)) =
            w :: atMostOnce (nonExpired pkg now W) := by
          simp [hne, atMostOnce, hq]
        rw [hack] at hk ⊢
        rw [hamo]
        simp only [List.map_cons, readLoop, hrt w, hex, hq, if_true, if_false,
          Bool.false_eq_true]
        obtain ⟨h1, h2, h3, h4, h5⟩ := ih
          ⟨v.len - 1, v.current, v.readCache, v.pflag, v.elems ++ [w],
            v.sent ++ [.lrem (pkg.Encode w)]⟩ hk
        refine ⟨h1, ?_, ?_, h4, h5⟩
        · rw [h2, hne]
          simp [assignIds, hq]
        · rw [h3]
          simp only [List.length_cons]
          push_cast
          ring
      · have hack : ackRequired (nonExpired pkg now (w :: W)) =
            w :: ackRequired (nonExpired pkg now W) := by
          simp [hne, ackRequired, hq]
        have hamo : atMostOnce (nonExpired pkg now (w :: W)) =
            atMostOnce (nonExpired pkg now W) := by
          simp [hne, atMostOnce, hq]
        rw [hack] at hk ⊢
        rw [hamo]
        simp only [List.length_cons] at hk ⊢
        have hlt : v.pflag < pids.length := by omega
        have hget : pids.get? v.pflag = some (pids[v.pflag]) := by
          rw [List.get?_eq_getElem?, List.getElem?_eq_getElem hlt]
        have hdrop : pids.drop v.pflag = pids[v.pflag] :: pids.drop (v.pflag + 1) :=
          List.drop_eq_getElem_cons hlt
        simp only [List.map_cons, readLoop, hrt w, hex, hq, if_false, Bool.false_eq_true, hget]
        obtain ⟨h1, h2, h3, h4, h5⟩ := ih
          ⟨v.len, v.current + 1,
            Function.update v.readCache (w.SetID pids[v.pflag]).id
              (some (pkg.Encode (w.SetID pids[v.pflag]))),
            v.pflag + 1, v.elems ++ [w.SetID pids[v.pflag]],
            v.sent ++ [.lset v.current (pkg.Encode (w.SetID pids[v.pflag]))]⟩
          (by simp only; omega)
        refine ⟨h1, ?_, h3, ?_, ?_⟩
        · rw [h2, hne, hdrop]
          simp [assignIds, hq]
        · rw [h4]
          push_cast
          ring
        · intro id hid
          rw [hdrop, List.take_succ_cons, List.mem_cons, not_or] at hid
          rw [h5 id hid.2]
          simp only [Elem.SetID]
          exact Function.update_noteq hid.1 _ _

/-- C10 (`Read` classifies each element of its window): on an open queue with
`inflightDrained` set, `current = c < len`, a non-empty batch `pids` and a
healthy store whose values at positions `[c, c + |pids|)` are the encodings of
`W`, `Read pids` returns, without error, a list `elems` that is the list of
non-expired elements of `W` in stored order up to identifiers; the at-most-once
elements are returned as stored; the acknowledgment-required elements returned
carry, in order, the first identifiers of `pids`, one each; `len` decreases by
the number of expired plus non-expired at-most-once elements of `W`; `current`
increases by the number of acknowledgment-required elements returned; and the
read cache changes at most under the identifiers assigned. -/
theorem Read_classifies (pkg : QueuePkg) (now : Nat) (q : Queue) (s : Redis)
    (pids : List PacketID) (c : Nat) (W : List Elem) (hrt : pkg.RoundTrip)
    (hup : s.down = false) (hopen : q.closed = false) (hdr : q.inflightDrained = true)
    (hlt : q.current < q.len) (hcur : q.current = (c : Int)) (hp : pids ≠ [])
    (hW : (s.list.drop c).take pids.length = W.map pkg.Encode) :
    ∃ elems, (Read pkg now q s pids).out = .returned elems none ∧
      elems.map (fun w => w.SetID 0) = (nonExpired pkg now W).map (fun w => w.SetID 0) ∧
      atMostOnce elems = atMostOnce (nonExpired pkg now W) ∧
      (ackRequired elems).map (fun w => w.id) =
        pids.take (ackRequired (nonExpired pkg now W)).length ∧
      (Read pkg now q s pids).q.len =
        q.len - (((expired pkg now W).length + (atMostOnce (nonExpired pkg now W)).length : Nat)
          : Int) ∧
      (Read pkg now q s pids).q.current =
        q.current + ((ackRequired (nonExpired pkg now W)).length : Int) ∧
      (∀ id, id ∉ pids.take (ackRequired (nonExpired pkg now W)).length →
        (Read pkg now q s pids).q.readCache id = q.readCache id) := by
  have hpl : 0 < pids.length := List.length_pos.mpr hp
  have hWl : W.length ≤ pids.length := by
    have h := congrArg List.length hW
    simp only [List.length_take, List.length_map] at h
    omega
  have hack : (ackRequired (nonExpired pkg now W)).length ≤ pids.length := by
    refine le_trans ?_ hWl
    unfold ackRequired nonExpired
    exact le_trans (List.length_filter_le _ _) (List.length_filter_le _ _)
  have hstop : q.current + (pids.length : Int) - 1 = ((c + pids.length - 1 : Nat) : Int) := by
    rw [hcur]; omega
  have hrs : lrange s.list q.current (q.current + (pids.length : Int) - 1) =
      W.map pkg.Encode := by
    rw [hstop, hcur, lrange_of_nonneg, ← hW]
    congr 1
    omega
  obtain ⟨h1, h2, h3, h4, h5⟩ := readLoop_spec pkg now pids hrt W
    ⟨q.len, q.current, q.readCache, 0, [], []⟩ (by simpa using hack)
  simp only [List.drop_zero, List.nil_append] at h2 h5
  have hng : ¬ q.current ≥ q.len := not_le.mpr hlt
  refine ⟨assignIds (nonExpired pkg now W) pids, ?_, assignIds_eraseId _ _,
    assignIds_atMostOnce _ _, assignIds_ackRequired _ _ hack, ?_, ?_, ?_⟩
  · unfold Read
    simp only [hdr, hopen, hng, hup, hrs, h1, not_true_eq_false, if_false, false_and,
      Bool.false_eq_true, h2]
  · unfold Read
    simp only [hdr, hopen, hng, hup, hrs, h1, not_true_eq_false, if_false, false_and,
      Bool.false_eq_true, h3]
  · unfold Read
    simp only [hdr, hopen, hng, hup, hrs, h1, not_true_eq_false, if_false, false_and,
      Bool.false_eq_true, h4]
  · intro id hid
    unfold Read
    simp only [hdr, hopen, hng, hup, hrs, h1, not_true_eq_false, if_false, false_and,
      Bool.false_eq_true, h5 id hid]

/-- Witness of C10: scenario 4, the stored list `[expired, id = 0]` and
`Read [7, 8]`. -/
theorem Read_classifies_witness :
    ∃ elems,
      (Read simplePkg 10 drainedQueue
        (store [simpleEncode expiringElem, simpleEncode (ackElem 2)]) [7, 8]).out =
          .returned elems none ∧
      (ackRequired elems).map (fun w => w.id) = [7] ∧
      (Read simplePkg 10 drainedQueue
        (store [simpleEncode expiringElem, simpleEncode (ackElem 2)]) [7, 8]).q.len = 1 ∧
      (Read simplePkg 10 drainedQueue
        (store [simpleEncode expiringElem, simpleEncode (ackElem 2)]) [7, 8]).q.current = 1 :=
  have h := Read_classifies simplePkg 10 drainedQueue
    (store [simpleEncode expiringElem, simpleEncode (ackElem 2)]) [7, 8] 0
    [expiringElem, ackElem 2] simplePkg_roundTrip rfl rfl rfl (by decide) rfl (by decide) rfl
  h.elim fun elems he => ⟨elems, he.1, he.2.2.2.1, he.2.2.2.2.1, he.2.2.2.2.2.1⟩

/-! ## Replace and the dispatched region (C11) -/

/-- C11 (Replace confined to the dispatched region, refuted on the code): right
after `Init` on a store holding one in-flight element, `current = 0` and the
region `[0, current)` is empty, yet `Replace` of an element with that
identifier returns `replaced = true`, overwrites the stored value at index 0
and writes a read-cache entry. -/
theorem Replace_at_current_zero_replaces :
    (Init (emptyQueue 3) (store [simpleEncode inflightElem]) false).q.current = 0 ∧
      resumedReplaceNew.replaced = true ∧ resumedReplaceNew.err = none ∧
      resumedReplaceNew.s.list = [simpleEncode replacementElem] ∧
      resumedReplaceNew.q.readCache 5 = some (simpleEncode replacementElem) ∧
      (Init (emptyQueue 3) (store [simpleEncode inflightElem]) false).q.readCache 5 = none := by
  decide

/-! ## Effect of an acknowledgment (C12) -/

/-- C12, counterexample: after `Init` and `ReadInflight 1` on a store holding
one in-flight element the read cache holds its bytes under identifier 5; once
`Clean` has emptied the store, `Remove 5` succeeds and removes nothing from the
stored list (it is empty before and after), while `len` and `current` still go
down by one. -/
theorem Remove_cached_bytes_not_stored :
    phaseOneOpen.q.readCache 5 = some (simpleEncode inflightElem) ∧
      (Clean phaseOneOpen.s).2 = none ∧ (Clean phaseOneOpen.s).1.list = [] ∧
      (Remove phaseOneOpen.q (Clean phaseOneOpen.s).1 5).err = none ∧
      (Remove phaseOneOpen.q (Clean phaseOneOpen.s).1 5).s.list = [] ∧
      phaseOneOpen.q.len = 1 ∧ phaseOneOpen.q.current = 1 ∧
      (Remove phaseOneOpen.q (Clean phaseOneOpen.s).1 5).q.len = 0 ∧
      (Remove phaseOneOpen.q (Clean phaseOneOpen.s).1 5).q.current = 0 := by
  decide

/-- C12, amended (effect of an acknowledgment): when `id` is a key of the read
cache with bytes `b` and the store is healthy, `Remove id` returns no error;
if `b` is stored it removes the first occurrence of `b` and keeps the other
stored values in order, and if `b` is not stored the list is unchanged; it
deletes the cache entry of `id` and no other, decreases `len` by one and
`current` by one and leaves the other fields as they were. -/
theorem Remove_cached (q : Queue) (s : Redis) (pid : PacketID) (b : Bytes)
    (hc : q.readCache pid = some b) (hup : s.down = false) :
    (Remove q s pid).err = none ∧
      (b ∈ s.list → ∃ l1 l2, b ∉ l1 ∧ s.list = l1 ++ b :: l2 ∧
        (Remove q s pid).s.list = l1 ++ l2) ∧
      (b ∉ s.list → (Remove q s pid).s.list = s.list) ∧
      (Remove q s pid).q.readCache pid = none ∧
      (∀ k, k ≠ pid → (Remove q s pid).q.readCache k = q.readCache k) ∧
      (Remove q s pid).q.len = q.len - 1 ∧
      (Remove q s pid).q.current = q.current - 1 ∧
      (Remove q s pid).q.max = q.max ∧ (Remove q s pid).q.closed = q.closed ∧
      (Remove q s pid).q.inflightDrained = q.inflightDrained := by
  have hl : (Remove q s pid).s.list = s.list.erase b := by
    simp [Remove, hc, hup, Redis.run, Cmd.exec]
  refine ⟨by simp [Remove, hc, hup], ?_, ?_, by simp [Remove, hc, hup], ?_,
    by simp [Remove, hc, hup], by simp [Remove, hc, hup], by simp [Remove, hc, hup],
    by simp [Remove, hc, hup], by simp [Remove, hc, hup]⟩
  · intro hb
    obtain ⟨l1, l2, h1, h2, h3⟩ := List.exists_erase_eq hb
    exact ⟨l1, l2, h1, h2, by rw [hl, h3]⟩
  · intro hb
    rw [hl, List.erase_of_not_mem hb]
  · intro k hk
    simp [Remove, hc, hup, Function.update_noteq hk]

/-- Witness of C12: the acknowledgment of the replayed element of
`phaseOneOpen`. -/
theorem Remove_cached_witness :
    phaseOneOpen.q.readCache 5 = some (simpleEncode inflightElem) ∧
      phaseOneOpen.s.down = false ∧
      (Remove phaseOneOpen.q phaseOneOpen.s 5).q.len = phaseOneOpen.q.len - 1 :=
  ⟨by decide, by decide,
    (Remove_cached phaseOneOpen.q phaseOneOpen.s 5 (simpleEncode inflightElem)
      (by decide) (by decide)).2.2.2.2.2.1⟩

/-! ## Read on a closed queue (C13) -/

/-- C13, counterexample: on a queue that is closed while `inflightDrained` is
false, `Read` ends in the protocol panic and not in the closed-queue error. -/
theorem Read_closed_not_drained_panics :
    closedUndrained.closed = true ∧ closedUndrained.inflightDrained = false ∧
      (Read simplePkg 10 closedUndrained (store []) [7]).out = .protocolPanic := by
  decide

/-- C13, amended (Read on a closed queue): when `closed` is true and
`inflightDrained` is true, whatever `current` and `len` are, `Read` returns at
once no elements and the closed-queue error, issues no store command and leaves
the queue fields and the store unchanged. -/
theorem Read_closed (pkg : QueuePkg) (now : Nat) (q : Queue) (s : Redis)
    (pids : List PacketID) (hclosed : q.closed = true) (hdr : q.inflightDrained = true) :
    Read pkg now q s pids = ⟨q, s, .returned [] (some .closed)⟩ := by
  simp [Read, hclosed, hdr]

/-- Witness of C13: `allInflightQueue` once closed, where `current ≥ len`. -/
theorem Read_closed_witness :
    (Close allInflightQueue).1.closed = true ∧
      (Close allInflightQueue).1.inflightDrained = true ∧
      Read simplePkg 10 (Close allInflightQueue).1 (store []) [7] =
        ⟨(Close allInflightQueue).1, store [], .returned [] (some .closed)⟩ :=
  ⟨by decide, by decide,
    Read_closed simplePkg 10 (Close allInflightQueue).1 (store []) [7] (by decide) (by decide)⟩

/-! ## Init (C14) -/

/-- C14 (Init resets the queue): whatever the prior queue fields and the stored
list, when `Init cleanStart` returns no error it leaves `current = 0`,
`inflightDrained = false`, `closed = false`, an empty read cache and `len`
equal to the length of the stored list after the call; that list is empty
(and `len = 0`) when `cleanStart` is true and is the old list when
`cleanStart` is false.  On a healthy store `Init` returns no error. -/
theorem Init_resets (q : Queue) (s : Redis) (cleanStart : Bool)
    (hok : (Init q s cleanStart).err = none) :
    (Init q s cleanStart).q.current = 0 ∧
      (Init q s cleanStart).q.inflightDrained = false ∧
      (Init q s cleanStart).q.closed = false ∧
      (∀ id, (Init q s cleanStart).q.readCache id = none) ∧
      (Init q s cleanStart).q.len = ((Init q s cleanStart).s.list.length : Int) ∧
      (cleanStart = true → (Init q s cleanStart).s.list = [] ∧ (Init q s cleanStart).q.len = 0) ∧
      (cleanStart = false → (Init q s cleanStart).s.list = s.list) ∧
      (Init q s cleanStart).q.max = q.max ∧
      (s.down = false → ∀ c, (Init q s c).err = none) := by
  have hup : s.down = false := by
    cases hd : s.down with
    | false => rfl
    | true =>
      cases cleanStart <;> simp [Init, hd] at hok
  cases cleanStart <;> simp [Init, hup, Redis.run, Cmd.exec]

/-- Witness of C14: `Init` with `cleanStart` on a closed queue and a non-empty
store. -/
theorem Init_resets_witness :
    (Init (Close allInflightQueue).1 (store [simpleEncode inflightElem]) true).err = none ∧
      (Init (Close allInflightQueue).1 (store [simpleEncode inflightElem]) true).q.current = 0 ∧
      (Init (Close allInflightQueue).1 (store [simpleEncode inflightElem]) true).q.closed
        = false :=
  ⟨by decide,
    (Init_resets (Close allInflightQueue).1 (store [simpleEncode inflightElem]) true
      (by decide)).1,
    (Init_resets (Close allInflightQueue).1 (store [simpleEncode inflightElem]) true
      (by decide)).2.2.1⟩

/-! ## The `len` field and the stored list (C15) -/

/-- C15 (`len` tracks the store, refuted on the code): in scenario 1, after
`Init` and four `Add` calls on a queue of capacity 3, the stored list has
three elements and the field `len` is 4. -/
theorem Add_evicting_len_differs_from_list :
    (scenarioAdds 3).q.len = ((scenarioAdds 3).s.list.length : Int) ∧
      (scenarioAdds 4).s.list.length = 3 ∧ (scenarioAdds 4).q.len = 4 ∧
      (scenarioAdds 4).err = none := by
  decide

/-! ## The limit of ReadInflight (C17) -/

/-- C17 (ReadInflight respects its limit, refuted on the code): right after
`Init` on a store holding two in-flight elements, `ReadInflight 0` issues the
range read `lrange 0 -1`, which is the whole list, returns both elements (more
than the limit 0) and leaves `current = 2`. -/
theorem ReadInflight_zero_limit_returns_all :
    resumedTwo.q.current = 0 ∧
      (ReadInflight simplePkg resumedTwo.q resumedTwo.s 0).s.log =
        [.llen, .lrange 0 (-1)] ∧
      (ReadInflight simplePkg resumedTwo.q resumedTwo.s 0).elems =
        [inflightElem, inflightElem2] ∧
      (ReadInflight simplePkg resumedTwo.q resumedTwo.s 0).err = none ∧
      (ReadInflight simplePkg resumedTwo.q resumedTwo.s 0).q.current = 2 := by
  decide

/-! ## Store failures (C18) -/

/-- C18 (store failure leaves the in-memory state untouched, refuted on the
code for `ReadInflight`): on a queue fresh from `Init`, when the connection is
broken `ReadInflight 1` returns the store error but sets `inflightDrained`,
which was false before the call. -/
theorem ReadInflight_store_failure_sets_drained :
    (Init (emptyQueue 3) (store []) false).q.inflightDrained = false ∧
      (ReadInflight simplePkg (Init (emptyQueue 3) (store []) false).q (brokenStore []) 1).err =
        some .store ∧
      (ReadInflight simplePkg (Init (emptyQueue 3) (store []) false).q
        (brokenStore []) 1).q.inflightDrained = true := by
  decide

/-- The other operations on a broken connection: `Init`, `Replace`, `Remove` of
a cached identifier, `Read` once past its gates and `Add` on a full queue with
a pending region return the store error and leave every queue field as it
was. -/
theorem store_failure_keeps_fields (pkg : QueuePkg) (now : Nat) (q : Queue) (s : Redis)
    (hdown : s.down = true) :
    (∀ c, (Init q s c).err = some .store ∧ (Init q s c).q = q) ∧
      (∀ e, (Replace pkg q s e).err = some .store ∧ (Replace pkg q s e).q = q) ∧
      (∀ pid, q.readCache pid ≠ none →
        (Remove q s pid).err = some .store ∧ (Remove q s pid).q = q) ∧
      (∀ pids, q.inflightDrained = true → q.closed = false → q.current < q.len →
        (Read pkg now q s pids).out = .returned [] (some .store) ∧
          (Read pkg now q s pids).q = q) ∧
      (∀ e, q.len ≥ q.max → ¬ (q.inflightDrained = true ∧ q.current ≥ q.len) →
        (Add pkg now q s e).err = some .store ∧ (Add pkg now q s e).q = q) := by
  refine ⟨?_, ?_, ?_, ?_, ?_⟩
  · intro c
    cases c <;> simp [Init, hdown]
  · intro e
    simp [Replace, hdown]
  · intro pid hpid
    cases hc : q.readCache pid with
    | none => exact absurd hc hpid
    | some b => simp [Remove, hc, hdown]
  · intro pids hdr hcl hlt
    have hng : ¬ q.current ≥ q.len := not_le.mpr hlt
    simp [Read, hdr, hcl, hng, hdown]
  · intro e hfull hcase
    simp [Add, hfull, hcase, hdown, addDeferred]

/-! ## The stored list stays bounded (C20) -/

theorem addDeferred_drop_list (pkg : QueuePkg) (q : Queue) (s s1 : Redis) (e : Elem)
    (v : AddVars) (err : Option Err) (hs : s1.list = s.list) (hdn : s1.down = false)
    (hv : ZeroIdIn pkg s.list v.dropBytes) :
    (addDeferred pkg q s1 e true v err).s.list = s.list ∨
      ∃ b, b ∈ s.list ∧
        (addDeferred pkg q s1 e true v err).s.list = s.list.erase b ++ [pkg.Encode e] := by
  cases hdb : v.dropBytes with
  | none => left; simp [addDeferred, hdb, hs]
  | some b =>
    obtain ⟨hb, -⟩ := hv b hdb
    right
    exact ⟨b, hb, by simp [addDeferred, hdb, Redis.runAll, Redis.run, hdn, hs, Cmd.exec]⟩

theorem Add_full_list (pkg : QueuePkg) (now : Nat) (q : Queue) (s : Redis) (e : Elem)
    (hup : s.down = false) (hfull : q.len ≥ q.max) :
    (Add pkg now q s e).s.list = s.list ∨
      ∃ b, b ∈ s.list ∧ (Add pkg now q s e).s.list = s.list.erase b ++ [pkg.Encode e] := by
  have hnone : ZeroIdIn pkg s.list (none : Option Bytes) := by
    intro b hb
    cases hb
  have hrun : (s.run (.lrange q.current q.len)).list = s.list := by
    simp [Redis.run, hup, Cmd.exec]
  have hrund : (s.run (.lrange q.current q.len)).down = false := by
    simp [Redis.run, hup]
  unfold Add
  simp only [hfull, if_true, hup, Bool.false_eq_true, if_false]
  split
  · exact addDeferred_drop_list pkg q s s e _ none rfl hup hnone
  · have hinv := addScan_zeroId pkg now s.list (lrange s.list q.current q.len)
      (lrange_subset _ _ _) 0 ⟨none, none, none, none⟩ hnone hnone
    cases hr : addScan pkg now 0 (lrange s.list q.current q.len) ⟨none, none, none, none⟩ with
    | mk v ex =>
      rw [hr] at hinv
      cases ex with
      | returned err => exact addDeferred_drop_list pkg q s _ e v err hrun hrund hinv.1
      | finished =>
        simp only
        split
        · exact addDeferred_drop_list pkg q s _ e v none hrun hrund hinv.1
        · split
          · exact addDeferred_drop_list pkg q s _ e v none hrun hrund hinv.1
          · apply addDeferred_drop_list pkg q s _ e _ none hrun hrund
            split
            · exact hinv.2
            · exact hinv.1

/-- C20 (the backing list stays bounded): on a healthy store whose list has
length `L ≤ len` and `L ≤ max`, the stored list after `Add` has length at most
`max`; and when `len ≥ max` the length does not change: either the list is
unchanged (nothing is stored) or one stored value is removed and the encoding
of the incoming element is appended. -/
theorem Add_list_bounded (pkg : QueuePkg) (now : Nat) (q : Queue) (s : Redis) (e : Elem)
    (hup : s.down = false) (hlen : (s.list.length : Int) ≤ q.len)
    (hmax : (s.list.length : Int) ≤ q.max) :
    ((Add pkg now q s e).s.list.length : Int) ≤ q.max ∧
      (q.len ≥ q.max →
        (Add pkg now q s e).s.list.length = s.list.length ∧
        ((Add pkg now q s e).s.list = s.list ∨
          ∃ b, b ∈ s.list ∧
            (Add pkg now q s e).s.list = s.list.erase b ++ [pkg.Encode e])) := by
  have hfullcase : q.len ≥ q.max →
      (Add pkg now q s e).s.list.length = s.list.length ∧
        ((Add pkg now q s e).s.list = s.list ∨
          ∃ b, b ∈ s.list ∧
            (Add pkg now q s e).s.list = s.list.erase b ++ [pkg.Encode e]) := by
    intro hfull
    have h := Add_full_list pkg now q s e hup hfull
    refine ⟨?_, h⟩
    rcases h with h | ⟨b, hb, h⟩
    · rw [h]
    · rw [h, List.length_append, List.length_erase_of_mem hb]
      have hpos : 0 < s.list.length := List.length_pos_of_mem hb
      simp only [List.length_singleton]
      omega
  refine ⟨?_, hfullcase⟩
  by_cases hfull : q.len ≥ q.max
  · rw [(hfullcase hfull).1]
    exact hmax
  · have hlt : q.len < q.max := not_le.mp hfull
    have hl : (Add pkg now q s e).s.list = s.list ++ [pkg.Encode e] := by
      simp [Add, hfull, addDeferred, Redis.run, hup, Cmd.exec]
    rw [hl, List.length_append, List.length_singleton]
    push_cast
    omega

/-- Witness of C20: the fourth `Add` of scenario 1, on a full queue. -/
theorem Add_list_bounded_witness :
    (scenarioAdds 3).q.len ≥ (scenarioAdds 3).q.max ∧
      ((scenarioAdds 4).s.list.length : Int) ≤ (scenarioAdds 3).q.max ∧
      (scenarioAdds 4).s.list.length = (scenarioAdds 3).s.list.length :=
  ⟨by decide,
    (Add_list_bounded simplePkg 10 (scenarioAdds 3).q (scenarioAdds 3).s (ackElem 4)
      (by decide) (by decide) (by decide)).1,
    ((Add_list_bounded simplePkg 10 (scenarioAdds 3).q (scenarioAdds 3).s (ackElem 4)
      (by decide) (by decide) (by decide)).2 (by decide)).1⟩

/-! ## The pipeline of Read (C19) -/

theorem runAll_list (s : Redis) (cs : List Cmd) (hup : s.down = false) :
    (s.runAll cs).list = execAll cs s.list ∧ (s.runAll cs).down = false := by
  induction cs generalizing s with
  | nil => exact ⟨rfl, hup⟩
  | cons c cs ih =>
    have h1 : (s.run c).down = false := by simp [Redis.run, hup]
    have h2 : (s.run c).list = c.exec s.list := by simp [Redis.run, hup]
    have h := ih (s.run c) h1
    simp only [Redis.runAll, execAll, List.foldl_cons] at h ⊢
    rw [h2] at h
    exact h

theorem execAll_append (cs : List Cmd) (c : Cmd) (l : List Bytes) :
    execAll (cs ++ [c]) l = c.exec (execAll cs l) := by
  simp [execAll, List.foldl_append]

theorem encode_injective (pkg : QueuePkg) (hrt : pkg.RoundTrip) (a b : Elem)
    (h : pkg.Encode a = pkg.Encode b) : a = b := by
  have h1 := hrt a
  rw [h, hrt b] at h1
  exact (Option.some.inj h1).symm

theorem SetID_zero (w : Elem) (h : w.id = 0) : w.SetID 0 = w := by
  obtain ⟨i, qq, ex, pl⟩ := w
  dsimp only at h
  subst h
  rfl

theorem lset_append_cons (A : List Bytes) (b nb : Bytes) (rest : List Bytes) :
    lset (A ++ b :: rest) (A.length : Int) nb = A ++ nb :: rest := by
  unfold lset
  have h1 : ¬ ((A.length : Int) < 0) := by omega
  have h2 : ¬ ((A.length : Int) < 0 ∨ (A.length : Int) ≥ ((A ++ b :: rest).length : Int)) := by
    simp only [List.length_append, List.length_cons]
    push_cast
    omega
  simp only [h1, if_false, h2, Int.toNat_ofNat]
  induction A with
  | nil => rfl
  | cons a A ih => simp [List.set, ih]

theorem erase_append_cons (A : List Bytes) (b : Bytes) (rest : List Bytes) (h : b ∉ A) :
    (A ++ b :: rest).erase b = A ++ rest := by
  rw [List.erase_append_right _ h, List.erase_cons_head]

theorem readLoop_pipeline (pkg : QueuePkg) (now : Nat) (pids : List PacketID)
    (hrt : pkg.RoundTrip) (S l0 : List Bytes) (W : List Elem) (v : ReadVars) (A : List Bytes)
    (hk : v.pflag + (ackRequired (nonExpired pkg now W)).length ≤ pids.length)
    (hcur : v.current = (A.length : Int))
    (hl : execAll v.sent l0 = A ++ W.map pkg.Encode ++ S)
    (hW0 : ∀ w ∈ W, w.id = 0)
    (hA : ∀ w ∈ W, (pkg.ElemExpiry now w = true ∨ w.qos = 0) → pkg.Encode w ∉ A) :
    execAll (readLoop pkg now pids (W.map pkg.Encode) v).1.sent l0 =
        A ++ (ackRequired (assignIds (nonExpired pkg now W) (pids.drop v.pflag))).map
          pkg.Encode ++ S ∧
      (readLoop pkg now pids (W.map pkg.Encode) v).1.readCache =
        cacheInflight pkg v.readCache
          (ackRequired (assignIds (nonExpired pkg now W) (pids.drop v.pflag))) := by
  induction W generalizing v A with
  | nil =>
    simpa [readLoop, nonExpired, ackRequired, assignIds, cacheInflight] using hl
  | cons w W ih =>
    have hw0 : w.id = 0 := hW0 w (by simp)
    have hW1 : ∀ y ∈ W, y.id = 0 := fun y hy => hW0 y (by simp [hy])
    have hA1 : ∀ y ∈ W, (pkg.ElemExpiry now y = true ∨ y.qos = 0) → pkg.Encode y ∉ A :=
      fun y hy => hA y (by simp [hy])
    simp only [List.map_cons, List.append_assoc, List.cons_append] at hl
    cases hex : pkg.ElemExpiry now w with
    | true =>
      have hne : nonExpired pkg now (w :: W) = nonExpired pkg now W := by
        simp [nonExpired, hex]
      rw [hne] at hk ⊢
      simp only [List.map_cons, readLoop, hrt w, hex, if_true]
      apply ih ⟨v.len - 1, v.current, v.readCache, v.pflag, v.elems,
        v.sent ++ [Cmd.lrem (pkg.Encode w)]⟩ A hk hcur _ hW1 hA1
      rw [execAll_append, hl]
      simp only [Cmd.exec, List.append_assoc]
      exact erase_append_cons A _ _ (hA w (by simp) (Or.inl hex))
    | false =>
      have hne : nonExpired pkg now (w :: W) = w :: nonExpired pkg now W := by
        simp [nonExpired, hex]
      by_cases hq : w.qos = 0
      · have hack : ackRequired (nonExpired pkg now (w :: W)) =
            ackRequired (nonExpired pkg now W) := by
          simp [hne, ackRequired, hq]
        have hasg : ∀ ps, ackRequired (assignIds (nonExpired pkg now (w :: W)) ps) =
            ackRequired (assignIds (nonExpired pkg now W) ps) := by
          intro ps
          simp [hne, assignIds, ackRequired, hq]
        rw [hack] at hk
        rw [hasg]
        simp only [List.map_cons, readLoop, hrt w, hex, hq, if_true, if_false,
          Bool.false_eq_true]
        apply ih ⟨v.len - 1, v.current, v.readCache, v.pflag, v.elems ++ [w],
          v.sent ++ [Cmd.lrem (pkg.Encode w)]⟩ A hk hcur _ hW1 hA1
        rw [execAll_append, hl]
        simp only [Cmd.exec, List.append_assoc]
        exact erase_append_cons A _ _ (hA w (by simp) (Or.inr hq))
      · have hack : ackRequired (nonExpired pkg now (w :: W)) =
            w :: ackRequired (nonExpired pkg now W) := by
          simp [hne, ackRequired, hq]
        rw [hack] at hk
        simp only [List.length_cons] at hk
        have hlt : v.pflag < pids.length := by omega
        have hget : pids.get? v.pflag = some (pids[v.pflag]) := by
          rw [List.get?_eq_getElem?, List.getElem?_eq_getElem hlt]
        have hdrop : pids.drop v.pflag = pids[v.pflag] :: pids.drop (v.pflag + 1) :=
          List.drop_eq_getElem_cons hlt
        have hasg : ackRequired (assignIds (nonExpired pkg now (w :: W)) (pids.drop v.pflag)) =
            w.SetID pids[v.pflag] ::
              ackRequired (assignIds (nonExpired pkg now W) (pids.drop (v.pflag + 1))) := by
          rw [hne, hdrop]
          simp [assignIds, ackRequired, hq, Elem.SetID]
        rw [hasg]
        simp only [List.map_cons, readLoop, hrt w, hex, hq, if_false, Bool.false_eq_true, hget]
        have hA2 : ∀ y ∈ W, (pkg.ElemExpiry now y = true ∨ y.qos = 0) →
            pkg.Encode y ∉ A ++ [pkg.Encode (w.SetID pids[v.pflag])] := by
          intro y hy hrem hmem
          rw [List.mem_append, List.mem_singleton] at hmem
          rcases hmem with hmem | hmem
          · exact hA1 y hy hrem hmem
          · have hyw : y = w.SetID pids[v.pflag] := encode_injective pkg hrt _ _ hmem
            have hy0 : y.id = 0 := hW1 y hy
            have hp0 : pids[v.pflag] = 0 := by
              have : (w.SetID pids[v.pflag]).id = 0 := by rw [← hyw]; exact hy0
              simpa [Elem.SetID] using this
            have hyw2 : y = w := by
              rw [hyw, hp0]
              exact SetID_zero w hw0
            rcases hrem with h | h
            · rw [hyw2, hex] at h
              exact Bool.false_ne_true h
            · rw [hyw2] at h
              exact hq h
        have hres := ih
          ⟨v.len, v.current + 1,
            Function.update v.readCache (w.SetID pids[v.pflag]).id
              (some (pkg.Encode (w.SetID pids[v.pflag]))),
            v.pflag + 1, v.elems ++ [w.SetID pids[v.pflag]],
            v.sent ++ [Cmd.lset v.current (pkg.Encode (w.SetID pids[v.pflag]))]⟩
          (A ++ [pkg.Encode (w.SetID pids[v.pflag])]) (by simp only; omega)
          (by simp only [List.length_append, List.length_singleton]; push_cast; omega)
          (by
            rw [execAll_append, hl]
            simp only [Cmd.exec, hcur, List.append_assoc, List.singleton_append]
            exact lset_append_cons A _ _ _)
          hW1 hA2
        obtain ⟨h1, h2⟩ := hres
        refine ⟨?_, ?_⟩
        · rw [h1]
          simp only [List.append_assoc, List.singleton_append, List.map_cons, List.cons_append,
            List.nil_append]
        · rw [h2]
          simp only [cacheInflight, List.foldl_cons]

theorem cacheInflight_cases (pkg : QueuePkg) (K : List Elem) (c : PacketID → Option Bytes)
    (k : PacketID) :
    cacheInflight pkg c K k = c k ∨
      ∃ e ∈ K, e.id = k ∧ cacheInflight pkg c K k = some (pkg.Encode e) := by
  induction K generalizing c with
  | nil => left; rfl
  | cons e K ih =>
    have hstep : cacheInflight pkg c (e :: K) =
        cacheInflight pkg (Function.update c e.id (some (pkg.Encode e))) K := rfl
    rw [hstep]
    rcases ih (Function.update c e.id (some (pkg.Encode e))) with h | ⟨e1, he1, hid, h⟩
    · by_cases hk : k = e.id
      · right
        refine ⟨e, by simp, hk.symm, ?_⟩
        rw [h, hk, Function.update_same]
      · left
        rw [h, Function.update_noteq hk]
    · right
      exact ⟨e1, by simp [he1], hid, h⟩

/-- C19, counterexample: on `mixedQueue` and `mixedStore` (open, phase 1
finished, `current = 2 < len = 3`, the window `[2, 3)` holding one element with
identifier 0), `Read [8]` removes the at-most-once element by value, and the
value removed is the equal copy at position 0: the two positions before the
window held `[fireElem, inflightElem7]` and hold `[inflightElem7, fireElem]`
afterwards. -/
theorem Read_lrem_hits_position_before_window :
    mixedQueue.closed = false ∧ mixedQueue.inflightDrained = true ∧
      mixedQueue.current = 2 ∧ mixedQueue.len = 3 ∧
      (mixedStore.list.drop 2).map simpleDecode = [some fireElem] ∧ fireElem.id = 0 ∧
      mixedStore.list.take 2 = [simpleEncode fireElem, simpleEncode inflightElem7] ∧
      (Read simplePkg 10 mixedQueue mixedStore [8]).out = .returned [fireElem] none ∧
      (Read simplePkg 10 mixedQueue mixedStore [8]).s.list =
        [simpleEncode inflightElem7, simpleEncode fireElem] := by
  decide

theorem Read_effect (pkg : QueuePkg) (now : Nat) (q : Queue) (s : Redis)
    (pids : List PacketID) (P S : List Bytes) (W : List Elem) (hrt : pkg.RoundTrip)
    (hup : s.down = false) (hopen : q.closed = false) (hdr : q.inflightDrained = true)
    (hlt : q.current < q.len) (hcur : q.current = (P.length : Int)) (hp : pids ≠ [])
    (hlist : s.list = P ++ W.map pkg.Encode ++ S) (hWl : W.length ≤ pids.length)
    (hfull : W.length = pids.length ∨ S = []) (hW0 : ∀ w ∈ W, w.id = 0)
    (hP : ∀ w ∈ W, (pkg.ElemExpiry now w = true ∨ w.qos = 0) → pkg.Encode w ∉ P) :
    (Read pkg now q s pids).out = .returned (assignIds (nonExpired pkg now W) pids) none ∧
      (Read pkg now q s pids).s.list =
        P ++ (ackRequired (assignIds (nonExpired pkg now W) pids)).map pkg.Encode ++ S ∧
      (Read pkg now q s pids).s.down = false ∧
      (Read pkg now q s pids).q.current =
        ((P.length + (ackRequired (assignIds (nonExpired pkg now W) pids)).length : Nat) : Int) ∧
      (Read pkg now q s pids).q.readCache =
        cacheInflight pkg q.readCache (ackRequired (assignIds (nonExpired pkg now W) pids)) ∧
      (Read pkg now q s pids).q.inflightDrained = true := by
  have hpl : 0 < pids.length := List.length_pos.mpr hp
  have hack : (ackRequired (nonExpired pkg now W)).length ≤ pids.length := by
    refine le_trans ?_ hWl
    unfold ackRequired nonExpired
    exact le_trans (List.length_filter_le _ _) (List.length_filter_le _ _)
  have hstop : q.current + (pids.length : Int) - 1 =
      ((P.length + pids.length - 1 : Nat) : Int) := by
    rw [hcur]; omega
  have htake : (W.map pkg.Encode ++ S).take pids.length = W.map pkg.Encode := by
    rcases hfull with h | h
    · rw [List.take_append_of_le_length (by simp [h])]
      exact List.take_of_length_le (by simp [h])
    · rw [h, List.append_nil]
      exact List.take_of_length_le (by simpa using hWl)
  have hrs : lrange s.list q.current (q.current + (pids.length : Int) - 1) =
      W.map pkg.Encode := by
    rw [hstop, hcur, lrange_of_nonneg, hlist, List.append_assoc, List.drop_left]
    have : P.length + pids.length - 1 + 1 - P.length = pids.length := by omega
    rw [this, htake]
  obtain ⟨h1, h2, -, h4, -⟩ := readLoop_spec pkg now pids hrt W
    ⟨q.len, q.current, q.readCache, 0, [], []⟩ (by simpa using hack)
  obtain ⟨h6, h7⟩ := readLoop_pipeline pkg now pids hrt S s.list W
    ⟨q.len, q.current, q.readCache, 0, [], []⟩ P (by simpa using hack) hcur
    (by simpa [execAll] using hlist) hW0 hP
  simp only [List.drop_zero, List.nil_append] at h2 h6 h7
  have hng : ¬ q.current ≥ q.len := not_le.mpr hlt
  have hs1 : (s.run (.lrange q.current (q.current + (pids.length : Int) - 1))).down = false := by
    simp [Redis.run, hup]
  have hs1l : (s.run (.lrange q.current (q.current + (pids.length : Int) - 1))).list =
      s.list := by
    simp [Redis.run, hup, Cmd.exec]
  refine ⟨?_, ?_, ?_, ?_, ?_, ?_⟩
  · unfold Read
    simp only [hdr, hopen, hng, hup, hrs, h1, not_true_eq_false, if_false, false_and,
      Bool.false_eq_true, h2]
  · unfold Read
    simp only [hdr, hopen, hng, hup, hrs, h1, not_true_eq_false, if_false, false_and,
      Bool.false_eq_true]
    rw [(runAll_list _ _ hs1).1, hs1l, h6]
  · unfold Read
    simp only [hdr, hopen, hng, hup, hrs, h1, not_true_eq_false, if_false, false_and,
      Bool.false_eq_true]
    exact (runAll_list _ _ hs1).2
  · unfold Read
    simp only [hdr, hopen, hng, hup, hrs, h1, not_true_eq_false, if_false, false_and,
      Bool.false_eq_true, h4]
    have hlen : (ackRequired (assignIds (nonExpired pkg now W) pids)).length =
        (ackRequired (nonExpired pkg now W)).length := by
      have h := congrArg List.length (assignIds_ackRequired (nonExpired pkg now W) pids hack)
      simp only [List.length_map, List.length_take] at h
      omega
    rw [hlen, hcur]
    push_cast
    rfl
  · unfold Read
    simp only [hdr, hopen, hng, hup, hrs, h1, not_true_eq_false, if_false, false_and,
      Bool.false_eq_true, h7]
  · unfold Read
    simp only [hdr, hopen, hng, hup, hrs, h1, not_true_eq_false, if_false, false_and,
      Bool.false_eq_true]

/-- C19, amended (Read persists the assigned identifiers in place): on an open
queue with `inflightDrained` set, `current = |P| < len`, a non-empty batch
`pids` and a healthy store whose list is `P`, then the encodings of the window
`W` read (all with identifier 0), then `S`, and provided no value of `P` equals
the encoding of an expired or at-most-once element of `W`: after `Read pids`
the stored list is `P`, then the encodings of the acknowledgment-required
elements returned (with their assigned identifiers, in order), then `S`;
`current` has moved past exactly those elements; and every read-cache entry
changed by the call holds the stored encoding of a returned element with that
identifier. -/
theorem Read_persists (pkg : QueuePkg) (now : Nat) (q : Queue) (s : Redis)
    (pids : List PacketID) (P S : List Bytes) (W : List Elem) (hrt : pkg.RoundTrip)
    (hup : s.down = false) (hopen : q.closed = false) (hdr : q.inflightDrained = true)
    (hlt : q.current < q.len) (hcur : q.current = (P.length : Int)) (hp : pids ≠ [])
    (hlist : s.list = P ++ W.map pkg.Encode ++ S) (hWl : W.length ≤ pids.length)
    (hfull : W.length = pids.length ∨ S = []) (hW0 : ∀ w ∈ W, w.id = 0)
    (hP : ∀ w ∈ W, (pkg.ElemExpiry now w = true ∨ w.qos = 0) → pkg.Encode w ∉ P) :
    ∃ elems, (Read pkg now q s pids).out = .returned elems none ∧
      (Read pkg now q s pids).s.list = P ++ (ackRequired elems).map pkg.Encode ++ S ∧
      (Read pkg now q s pids).q.current = ((P.length + (ackRequired elems).length : Nat) : Int) ∧
      (∀ k, (Read pkg now q s pids).q.readCache k ≠ q.readCache k →
        ∃ e ∈ ackRequired elems, e.id = k ∧
          (Read pkg now q s pids).q.readCache k = some (pkg.Encode e)) := by
  obtain ⟨h1, h2, -, h4, h5, -⟩ := Read_effect pkg now q s pids P S W hrt hup hopen hdr hlt hcur
    hp hlist hWl hfull hW0 hP
  refine ⟨assignIds (nonExpired pkg now W) pids, h1, h2, h4, ?_⟩
  intro k hk
  rw [h5] at hk ⊢
  rcases cacheInflight_cases pkg _ q.readCache k with h | h
  · exact absurd h hk
  · exact h

/-- Witness of C19: scenario 4, where the expired element is removed and the
other is stored again with identifier 7. -/
theorem Read_persists_witness :
    ∃ elems,
      (Read simplePkg 10 drainedQueue
        (store [simpleEncode expiringElem, simpleEncode (ackElem 2)]) [7, 8]).out =
          .returned elems none ∧
      (Read simplePkg 10 drainedQueue
        (store [simpleEncode expiringElem, simpleEncode (ackElem 2)]) [7, 8]).s.list =
          [] ++ (ackRequired elems).map simplePkg.Encode ++ [] :=
  have h := Read_persists simplePkg 10 drainedQueue
    (store [simpleEncode expiringElem, simpleEncode (ackElem 2)]) [7, 8] [] []
    [expiringElem, ackElem 2] simplePkg_roundTrip rfl rfl rfl (by decide) rfl (by decide) rfl
    (by decide) (Or.inl rfl) (by decide) (by decide)
  h.elim fun elems he => ⟨elems, he.1, he.2.1⟩

/-! ## The region invariant (C16) -/

theorem encode_inj (pkg : QueuePkg) (hrt : pkg.RoundTrip) : Function.Injective pkg.Encode :=
  fun a b h => encode_injective pkg hrt a b h

theorem map_encode_erase (pkg : QueuePkg) (hrt : pkg.RoundTrip) (l : List Elem) (e : Elem) :
    (l.map pkg.Encode).erase (pkg.Encode e) = (l.erase e).map pkg.Encode := by
  induction l with
  | nil => rfl
  | cons x l ih =>
    by_cases hx : x = e
    · subst hx
      simp
    · have hx1 : pkg.Encode x ≠ pkg.Encode e := fun h => hx (encode_injective pkg hrt _ _ h)
      simp [List.erase_cons, hx, hx1, ih]

theorem Regions_shaped (pkg : QueuePkg) (q : Queue) (s : Redis) (h : Regions pkg q s) :
    Shaped pkg s.list ∧ s.down = false := by
  obtain ⟨P, X, Z, hl, -, hP, hX, hZ, -, -, hup⟩ := h
  refine ⟨⟨P ++ X, Z, hl, ?_, hZ⟩, hup⟩
  intro e he
  rcases List.mem_append.mp he with h | h
  · exact hP e h
  · exact hX e h

theorem Init_regions (pkg : QueuePkg) (q : Queue) (s : Redis) (c : Bool)
    (hs : Shaped pkg s.list) (hup : s.down = false) :
    Regions pkg (Init q s c).q (Init q s c).s := by
  obtain ⟨X, Z, hl, hX, hZ⟩ := hs
  cases c with
  | true =>
    refine ⟨[], [], [], ?_, ?_, ?_, ?_, ?_, ?_, ?_, ?_⟩ <;>
      simp [Init, hup, Redis.run, Cmd.exec]
  | false =>
    refine ⟨[], X, Z, ?_, ?_, ?_, hX, hZ, ?_, ?_, ?_⟩ <;>
      simp [Init, hup, Redis.run, Cmd.exec, hl]

theorem Remove_regions (pkg : QueuePkg) (hrt : pkg.RoundTrip) (q : Queue) (s : Redis)
    (pid : PacketID) (h : Regions pkg q s) :
    Regions pkg (Remove q s pid).q (Remove q s pid).s := by
  obtain ⟨P, X, Z, hl, hcur, hP, hX, hZ, hdr, hcache, hup⟩ := h
  cases hc : q.readCache pid with
  | none =>
    have : Remove q s pid = ⟨q, s, none⟩ := by simp [Remove, hc]
    rw [this]
    exact ⟨P, X, Z, hl, hcur, hP, hX, hZ, hdr, hcache, hup⟩
  | some b =>
    obtain ⟨e, heP, hid, hb⟩ := hcache pid b hc
    have hlist : (Remove q s pid).s.list = (P.erase e ++ X ++ Z).map pkg.Encode := by
      have h1 : (Remove q s pid).s.list = s.list.erase b := by
        simp [Remove, hc, hup, Redis.run, Cmd.exec]
      rw [h1, hl, hb, map_encode_erase pkg hrt, List.append_assoc,
        List.erase_append_left _ heP, List.append_assoc]
    have hlen : (P.erase e).length = P.length - 1 := List.length_erase_of_mem heP
    have hpos : 0 < P.length := List.length_pos_of_mem heP
    refine ⟨P.erase e, X, Z, hlist, ?_, ?_, hX, hZ, ?_, ?_, ?_⟩
    · simp only [Remove, hc, hup, Bool.false_eq_true, if_false, hcur, hlen]
      omega
    · intro x hx
      exact hP x (List.mem_of_mem_erase hx)
    · simpa [Remove, hc, hup] using hdr
    · intro k b1 hk
      have hkq : (Remove q s pid).q.readCache = Function.update q.readCache pid none := by
        simp [Remove, hc, hup]
      rw [hkq] at hk
      by_cases hkp : k = pid
      · rw [hkp, Function.update_same] at hk
        cases hk
      · rw [Function.update_noteq hkp] at hk
        obtain ⟨e1, he1, hid1, hb1⟩ := hcache k b1 hk
        have hne : e1 ≠ e := by
          intro heq
          rw [heq, hid] at hid1
          exact hkp hid1.symm
        exact ⟨e1, (List.mem_erase_of_ne hne).mpr he1, hid1, hb1⟩
    · simp [Remove, hc, hup, Redis.run]


theorem Add_form (pkg : QueuePkg) (now : Nat) (q : Queue) (s : Redis) (e : Elem) :
    ∃ s1 drop v err, Add pkg now q s e = addDeferred pkg q s1 e drop v err ∧
      s1.list = s.list ∧ s1.down = s.down ∧ ZeroIdIn pkg s.list v.dropBytes := by
  have hnone : ZeroIdIn pkg s.list (none : Option Bytes) := by
    intro b hb
    cases hb
  have hrun : (s.run (.lrange q.current q.len)).list = s.list := by
    cases hdn : s.down <;> simp [Redis.run, hdn, Cmd.exec]
  have hrund : (s.run (.lrange q.current q.len)).down = s.down := by
    simp [Redis.run]
  unfold Add
  by_cases hfull : q.len ≥ q.max
  · simp only [hfull, if_true]
    split
    · exact ⟨s, true, _, none, rfl, rfl, rfl, hnone⟩
    · split
      · exact ⟨_, true, _, _, rfl, hrun, hrund, hnone⟩
      · have hinv := addScan_zeroId pkg now s.list (lrange s.list q.current q.len)
          (lrange_subset _ _ _) 0 ⟨none, none, none, none⟩ hnone hnone
        cases hr : addScan pkg now 0 (lrange s.list q.current q.len) ⟨none, none, none, none⟩ with
        | mk v ex =>
          rw [hr] at hinv
          cases ex with
          | returned err => exact ⟨_, true, v, err, rfl, hrun, hrund, hinv.1⟩
          | finished =>
            simp only
            split
            · exact ⟨_, true, v, none, rfl, hrun, hrund, hinv.1⟩
            · split
              · exact ⟨_, true, v, none, rfl, hrun, hrund, hinv.1⟩
              · refine ⟨_, true, _, none, rfl, hrun, hrund, ?_⟩
                split
                · exact hinv.2
                · exact hinv.1
  · simp only [hfull, if_false]
    exact ⟨s, false, _, none, rfl, rfl, rfl, hnone⟩

theorem addDeferred_fields (pkg : QueuePkg) (q : Queue) (s1 : Redis) (e : Elem) (drop : Bool)
    (v : AddVars) (err : Option Err) :
    (addDeferred pkg q s1 e drop v err).q.current = q.current ∧
      (addDeferred pkg q s1 e drop v err).q.readCache = q.readCache ∧
      (addDeferred pkg q s1 e drop v err).q.inflightDrained = q.inflightDrained ∧
      (addDeferred pkg q s1 e drop v err).s.down = s1.down := by
  unfold addDeferred
  cases drop <;> cases v.dropBytes <;> simp [Redis.runAll, Redis.run]

theorem Add_regions (pkg : QueuePkg) (hrt : pkg.RoundTrip) (now : Nat) (q : Queue) (s : Redis)
    (e : Elem) (he : e.id = 0) (h : Regions pkg q s) :
    Regions pkg (Add pkg now q s e).q (Add pkg now q s e).s := by
  obtain ⟨P, X, Z, hl, hcur, hP, hX, hZ, hdr, hcache, hup⟩ := h
  obtain ⟨s1, drop, v, err, hform, hs1, hs1d, hv⟩ := Add_form pkg now q s e
  obtain ⟨f1, f2, f3, f4⟩ := addDeferred_fields pkg q s1 e drop v err
  have hlc := addDeferred_list pkg q s s1 e drop v err hs1 hv
  rw [← hform] at f1 f2 f3 f4 hlc
  have hdown : (Add pkg now q s e).s.down = false := by rw [f4, hs1d, hup]
  have hcache1 : ∀ k b, (Add pkg now q s e).q.readCache k = some b →
      ∃ x ∈ P, x.id = k ∧ b = pkg.Encode x := by
    rw [f2]; exact hcache
  have hdr1 : (Add pkg now q s e).q.inflightDrained = true → X = [] := by
    rw [f3]; exact hdr
  have hcur1 : (Add pkg now q s e).q.current = (P.length : Int) := by rw [f1, hcur]
  rcases hlc with h1 | h1 | ⟨b, x, hb, hdec, hx0, h1⟩
  · exact ⟨P, X, Z, by rw [h1, hl], hcur1, hP, hX, hZ, hdr1, hcache1, hdown⟩
  · refine ⟨P, X, Z ++ [e], ?_, hcur1, hP, hX, ?_, hdr1, hcache1, hdown⟩
    · rw [h1, hl]
      simp
    · intro y hy
      rcases List.mem_append.mp hy with hy | hy
      · exact hZ y hy
      · rw [List.mem_singleton.mp hy]; exact he
  · rw [hl] at hb
    obtain ⟨y, hy, hyb⟩ := List.mem_map.mp hb
    have hxy : x = y := by
      rw [← hyb, hrt y] at hdec
      exact (Option.some.inj hdec).symm
    subst hxy
    have hxP : x ∉ P := fun hm => hP x hm hx0
    have hxX : x ∉ X := fun hm => hX x hm hx0
    have hxPX : x ∉ P ++ X := by
      intro hm
      rcases List.mem_append.mp hm with hm | hm
      · exact hxP hm
      · exact hxX hm
    refine ⟨P, X, Z.erase x ++ [e], ?_, hcur1, hP, hX, ?_, hdr1, hcache1, hdown⟩
    · rw [h1, hl, ← hyb, map_encode_erase pkg hrt, List.erase_append_right _ hxPX]
      simp
    · intro y hy
      rcases List.mem_append.mp hy with hy | hy
      · exact hZ y (List.mem_of_mem_erase hy)
      · rw [List.mem_singleton.mp hy]; exact he


theorem replaceScan_spec (pkg : QueuePkg) (hrt : pkg.RoundTrip) (elem : Elem) (P : List Elem)
    (i : Nat) :
    replaceScan pkg elem i (P.map pkg.Encode) = .notFound ∨
      ∃ k x, replaceScan pkg elem i (P.map pkg.Encode) = .found (i + k) ∧
        P[k]? = some x ∧ x.id = elem.id := by
  induction P generalizing i with
  | nil => left; rfl
  | cons y P ih =>
    by_cases hy : y.id = elem.id
    · right
      exact ⟨0, y, by simp [replaceScan, hrt y, hy], by simp, hy⟩
    · rcases ih (i + 1) with h | ⟨k, x, h, hk, hx⟩
      · left
        simp [replaceScan, hrt y, hy, h]
      · right
        refine ⟨k + 1, x, ?_, by simpa using hk, hx⟩
        simp only [List.map_cons, replaceScan, hrt y, hy, if_false, h]
        congr 1
        omega

theorem lset_nat (l : List Bytes) (k : Nat) (b : Bytes) (hk : k < l.length) :
    lset l (k : Int) b = l.set k b := by
  unfold lset
  have h1 : ¬ ((k : Int) < 0) := by omega
  have h3 : ¬ ((k : Int) ≥ (l.length : Int)) := by omega
  simp only [h1, if_false, false_or]
  rw [if_neg h3, Int.toNat_ofNat]

theorem Replace_unfold (pkg : QueuePkg) (q : Queue) (s : Redis) (elem : Elem) (stop : Int)
    (hstop : stop = if q.current - 1 < 0 then 0 else q.current - 1) :
    Replace pkg q s elem =
      if s.down then ⟨q, s.run (.lrange 0 stop), false, some .store⟩
      else
        match replaceScan pkg elem 0 (lrange s.list 0 stop) with
        | .decodeErr => ⟨q, s.run (.lrange 0 stop), false, some .decode⟩
        | .notFound => ⟨q, s.run (.lrange 0 stop), false, none⟩
        | .found k =>
          ⟨{ q with readCache := Function.update q.readCache elem.id (some (pkg.Encode elem)) },
            (s.run (.lrange 0 stop)).run (.lset (k : Int) (pkg.Encode elem)), true, none⟩ := by
  subst hstop
  rfl

theorem Replace_regions (pkg : QueuePkg) (hrt : pkg.RoundTrip) (q : Queue) (s : Redis)
    (elem : Elem) (hc1 : 1 ≤ q.current) (h : Regions pkg q s) :
    Regions pkg (Replace pkg q s elem).q (Replace pkg q s elem).s := by
  obtain ⟨P, X, Z, hl, hcur, hP, hX, hZ, hdr, hcache, hup⟩ := h
  have hPpos : 1 ≤ P.length := by omega
  have hstop : ((P.length - 1 : Nat) : Int) = if q.current - 1 < 0 then 0 else q.current - 1 := by
    have : ¬ (q.current - 1 < 0) := by omega
    rw [if_neg this, hcur]
    omega
  have hrs : lrange s.list 0 ((P.length - 1 : Nat) : Int) = P.map pkg.Encode := by
    rw [lrange_zero, hl]
    have : P.length - 1 + 1 = P.length := by omega
    rw [this, List.append_assoc, List.map_append, List.take_left' (by simp)]
  have hs1 : ∀ c, (s.run (Cmd.lrange 0 c)).list = s.list ∧
      (s.run (Cmd.lrange 0 c)).down = false := by
    intro c
    simp [Redis.run, hup, Cmd.exec]
  have hform := Replace_unfold pkg q s elem _ hstop
  rw [hrs] at hform
  rcases replaceScan_spec pkg hrt elem P 0 with hscan | ⟨k, x, hscan, hk, hx⟩
  · rw [hscan] at hform
    simp only [hup, Bool.false_eq_true, if_false] at hform
    rw [hform]
    exact ⟨P, X, Z, by rw [(hs1 _).1, hl], hcur, hP, hX, hZ, hdr, hcache, (hs1 _).2⟩
  · rw [Nat.zero_add] at hscan
    rw [hscan] at hform
    simp only [hup, Bool.false_eq_true, if_false] at hform
    rw [hform]
    have hkP : k < P.length := (List.getElem?_eq_some.mp hk).1
    have hxP : x ∈ P := List.getElem?_mem hk
    have hlist : ((s.run (Cmd.lrange 0 ((P.length - 1 : Nat) : Int))).run
        (Cmd.lset (k : Int) (pkg.Encode elem))).list = (P.set k elem ++ X ++ Z).map pkg.Encode := by
      have h1 : ((s.run (Cmd.lrange 0 ((P.length - 1 : Nat) : Int))).run
          (Cmd.lset (k : Int) (pkg.Encode elem))).list =
          lset s.list (k : Int) (pkg.Encode elem) := by
        simp [Redis.run, hup, Cmd.exec]
      rw [h1, lset_nat _ _ _ (by rw [hl]; simp; omega), hl, List.append_assoc,
        List.append_assoc, ← List.set_append_left _ _ hkP, List.map_set]
    have hdown : ((s.run (Cmd.lrange 0 ((P.length - 1 : Nat) : Int))).run
        (Cmd.lset (k : Int) (pkg.Encode elem))).down = false := by
      simp [Redis.run, hup]
    have helem : elem ∈ P.set k elem := List.getElem?_mem (List.getElem?_set_self hkP)
    refine ⟨P.set k elem, X, Z, hlist, by simpa using hcur, ?_, hX, hZ, hdr, ?_, hdown⟩
    · intro y hy
      rcases List.mem_or_eq_of_mem_set hy with hy | hy
      · exact hP y hy
      · rw [hy, ← hx]
        exact hP x hxP
    · intro k1 b1 hk1
      simp only at hk1
      by_cases hkk : k1 = elem.id
      · rw [hkk, Function.update_same] at hk1
        exact ⟨elem, helem, hkk.symm, (Option.some.inj hk1).symm⟩
      · rw [Function.update_noteq hkk] at hk1
        obtain ⟨e1, he1, hid1, hb1⟩ := hcache k1 b1 hk1
        obtain ⟨j, hj⟩ := List.mem_iff_getElem?.mp he1
        have hjk : k ≠ j := by
          intro hjk
          rw [← hjk, hk] at hj
          have : x = e1 := Option.some.inj hj
          rw [← this, hx] at hid1
          exact hkk hid1.symm
        refine ⟨e1, ?_, hid1, hb1⟩
        apply List.getElem?_mem (n := j)
        rw [List.getElem?_set_ne hjk]
        exact hj


theorem ReadInflight_unfold (pkg : QueuePkg) (q : Queue) (s : Redis) (n : Nat)
    (hup : s.down = false) (rs : List Bytes)
    (hrs : lrange s.list q.current (wrapInt (q.current + toInt n - 1)) = rs) :
    ReadInflight pkg q s n =
      if rs.length = 0 then
        ⟨{ q with inflightDrained := true },
          s.run (.lrange q.current (wrapInt (q.current + toInt n - 1))), [], none⟩
      else
        ⟨{ q with
            current := (inflightLoop pkg rs
              ⟨q.current, q.readCache, q.inflightDrained, []⟩).1.current
            readCache := (inflightLoop pkg rs
              ⟨q.current, q.readCache, q.inflightDrained, []⟩).1.readCache
            inflightDrained := (inflightLoop pkg rs
              ⟨q.current, q.readCache, q.inflightDrained, []⟩).1.inflightDrained },
          s.run (.lrange q.current (wrapInt (q.current + toInt n - 1))),
          (inflightLoop pkg rs ⟨q.current, q.readCache, q.inflightDrained, []⟩).2.1,
          (inflightLoop pkg rs ⟨q.current, q.readCache, q.inflightDrained, []⟩).2.2⟩ := by
  subst hrs
  unfold ReadInflight
  simp only [hup, Bool.false_eq_true, if_false, ne_eq, not_true_eq_false]

theorem cacheInflight_regions (pkg : QueuePkg) (c : PacketID → Option Bytes) (P K : List Elem)
    (hc : ∀ k b, c k = some b → ∃ e ∈ P, e.id = k ∧ b = pkg.Encode e) :
    ∀ k b, cacheInflight pkg c K k = some b → ∃ e ∈ P ++ K, e.id = k ∧ b = pkg.Encode e := by
  intro k b hk
  rcases cacheInflight_cases pkg K c k with h | ⟨e, he, hid, h⟩
  · rw [h] at hk
    obtain ⟨e, he, hid, hb⟩ := hc k b hk
    exact ⟨e, List.mem_append_left _ he, hid, hb⟩
  · rw [h] at hk
    exact ⟨e, List.mem_append_right _ he, hid, (Option.some.inj hk).symm⟩

theorem ReadInflight_regions (pkg : QueuePkg) (hrt : pkg.RoundTrip) (q : Queue) (s : Redis)
    (n : Nat) (h1 : 1 ≤ n) (h2 : n < 2 ^ 63) (h3 : q.current + (n : Int) ≤ 2 ^ 63)
    (h : Regions pkg q s) :
    Regions pkg (ReadInflight pkg q s n).q (ReadInflight pkg q s n).s := by
  obtain ⟨P, X, Z, hl, hcur, hP, hX, hZ, hdr, hcache, hup⟩ := h
  have hstop : wrapInt (q.current + toInt n - 1) = ((P.length + n - 1 : Nat) : Int) := by
    have h0 : q.current + toInt n - 1 = ((P.length + n - 1 : Nat) : Int) := by
      rw [toInt_of_lt _ h2, hcur]; omega
    rw [h0]
    rw [hcur] at h3
    exact wrapInt_of_range _ (by omega) (by omega)
  have hrs : lrange s.list q.current (wrapInt (q.current + toInt n - 1)) =
      (X.take n).map pkg.Encode ++ (Z.take (n - X.length)).map pkg.Encode := by
    rw [hstop, hcur, lrange_of_nonneg, hl, List.append_assoc, List.map_append, List.drop_left' (by simp)]
    have : P.length + n - 1 + 1 - P.length = n := by omega
    rw [this, ← List.map_take, List.take_append_eq_append_take, List.map_append]
  have hs1 : ∀ c, (s.run c).down = false := by
    intro c
    simp [Redis.run, hup]
  have hs1l : ∀ a b, (s.run (Cmd.lrange a b)).list = s.list := by
    intro a b
    simp [Redis.run, hup, Cmd.exec]
  rw [ReadInflight_unfold pkg q s n hup _ hrs]
  by_cases hlen : ((X.take n).map pkg.Encode ++ (Z.take (n - X.length)).map pkg.Encode).length = 0
  · rw [if_pos hlen]
    have hX0 : X = [] := by
      simp only [List.length_append, List.length_map, List.length_take] at hlen
      have : X.length = 0 := by omega
      exact List.length_eq_zero.mp this
    exact ⟨P, [], Z, by rw [hs1l, hl, hX0], hcur, hP, by simp, hZ, fun _ => rfl, hcache, hs1 _⟩
  · rw [if_neg hlen]
    have hloop := inflightLoop_prefix pkg hrt (X.take n)
      (fun e he => hX e (List.mem_of_mem_take he)) ((Z.take (n - X.length)).map pkg.Encode)
      ⟨q.current, q.readCache, q.inflightDrained, []⟩
    rw [hloop]
    simp only [List.nil_append]
    have hXsplit : X = X.take n ++ X.drop n := (List.take_append_drop n X).symm
    have hcache1 := cacheInflight_regions pkg q.readCache P (X.take n) hcache
    have hP1 : ∀ e ∈ P ++ X.take n, e.id ≠ 0 := by
      intro e he
      rcases List.mem_append.mp he with he | he
      · exact hP e he
      · exact hX e (List.mem_of_mem_take he)
    have hlist : s.list = (P ++ X.take n ++ X.drop n ++ Z).map pkg.Encode := by
      rw [hl]
      congr 2
      rw [List.append_assoc, List.take_append_drop]
    have hcur1 : q.current + ((X.take n).length : Int) = ((P ++ X.take n).length : Int) := by
      rw [hcur, List.length_append]
      push_cast
      rfl
    cases hZ1 : Z.take (n - X.length) with
    | nil =>
      simp only [List.map_nil, inflightLoop]
      refine ⟨P ++ X.take n, X.drop n, Z, by rw [hs1l, hlist], hcur1, hP1,
        fun e he => hX e (List.mem_of_mem_drop he), hZ, ?_, hcache1, hs1 _⟩
      intro hd
      rw [hdr hd]
      exact List.drop_nil
    | cons z Z1 =>
      have hz : z ∈ Z := List.mem_of_mem_take (by rw [hZ1]; simp)
      have hz0 : z.id = 0 := hZ z hz
      have hnX : X.length < n := by
        by_contra hcon
        have : n - X.length = 0 := by omega
        rw [this] at hZ1
        simp at hZ1
      have hXd : X.drop n = [] := List.drop_of_length_le (by omega)
      simp only [List.map_cons, inflightLoop, hrt z, hz0, ne_eq, not_true_eq_false, if_false]
      refine ⟨P ++ X.take n, [], Z, ?_, hcur1, hP1, by simp, hZ, fun _ => rfl, hcache1, hs1 _⟩
      rw [hs1l, hlist, hXd]


theorem Read_regions (pkg : QueuePkg) (hrt : pkg.RoundTrip) (now : Nat) (q : Queue) (s : Redis)
    (pids : List PacketID) (hne : pids ≠ []) (hids : ∀ p ∈ pids, p ≠ 0)
    (h : Regions pkg q s) :
    Regions pkg (Read pkg now q s pids).q (Read pkg now q s pids).s := by
  by_cases hd : q.inflightDrained = true
  swap
  · have : Read pkg now q s pids = ⟨q, s, .protocolPanic⟩ := by simp [Read, hd]
    rw [this]; exact h
  by_cases hb : q.current ≥ q.len ∧ ¬ q.closed = true
  · have : Read pkg now q s pids = ⟨q, s, .blocked⟩ := by simp [Read, hd, hb]
    rw [this]; exact h
  by_cases hc : q.closed = true
  · have : Read pkg now q s pids = ⟨q, s, .returned [] (some .closed)⟩ := by
      simp [Read, hd, hc]
    rw [this]; exact h
  have hopen : q.closed = false := by
    cases hq : q.closed with
    | false => rfl
    | true => exact absurd hq hc
  have hlt : q.current < q.len := by
    by_contra hcon
    exact hb ⟨not_lt.mp hcon, hc⟩
  obtain ⟨P, X, Z, hl, hcur, hP, hX, hZ, hdr, hcache, hup⟩ := h
  have hX0 : X = [] := hdr hd
  subst hX0
  have hW0 : ∀ w ∈ Z.take pids.length, w.id = 0 := fun w hw => hZ w (List.mem_of_mem_take hw)
  have hPW : ∀ w ∈ Z.take pids.length, (pkg.ElemExpiry now w = true ∨ w.qos = 0) →
      pkg.Encode w ∉ P.map pkg.Encode := by
    intro w hw _ hmem
    obtain ⟨p, hp, hpe⟩ := List.mem_map.mp hmem
    have : p = w := encode_injective pkg hrt _ _ hpe
    exact hP p hp (by rw [this]; exact hW0 w hw)
  have hlist : s.list = P.map pkg.Encode ++ (Z.take pids.length).map pkg.Encode ++
      (Z.drop pids.length).map pkg.Encode := by
    rw [hl, List.append_nil, List.map_append, List.append_assoc]
    congr 1
    rw [← List.map_append, List.take_append_drop]
  have hfull : (Z.take pids.length).length = pids.length ∨
      (Z.drop pids.length).map pkg.Encode = [] := by
    by_cases hz : pids.length ≤ Z.length
    · left
      rw [List.length_take]
      omega
    · right
      rw [List.drop_of_length_le (by omega)]
      rfl
  obtain ⟨-, r2, r3, r4, r5, r6⟩ := Read_effect pkg now q s pids (P.map pkg.Encode)
    ((Z.drop pids.length).map pkg.Encode) (Z.take pids.length) hrt hup hopen hd hlt
    (by rw [hcur, List.length_map]) hne hlist (by rw [List.length_take]; omega) hfull hW0 hPW
  have hack : (ackRequired (nonExpired pkg now (Z.take pids.length))).length ≤ pids.length := by
    have h1 : (ackRequired (nonExpired pkg now (Z.take pids.length))).length ≤
        (Z.take pids.length).length := by
      unfold ackRequired nonExpired
      exact le_trans (List.length_filter_le _ _) (List.length_filter_le _ _)
    exact le_trans h1 (List.length_take_le _ _)
  have hK : ∀ e ∈ ackRequired (assignIds (nonExpired pkg now (Z.take pids.length)) pids),
      e.id ≠ 0 := by
    intro e he
    have hmem : e.id ∈ (ackRequired (assignIds (nonExpired pkg now (Z.take pids.length))
        pids)).map (fun w => w.id) := List.mem_map.mpr ⟨e, he, rfl⟩
    rw [assignIds_ackRequired _ _ hack] at hmem
    exact hids _ (List.mem_of_mem_take hmem)
  refine ⟨P ++ ackRequired (assignIds (nonExpired pkg now (Z.take pids.length)) pids), [],
    Z.drop pids.length, ?_, ?_, ?_, by simp, ?_, fun _ => rfl, ?_, r3⟩
  · rw [r2]
    simp
  · rw [r4]
    simp
  · intro e he
    rcases List.mem_append.mp he with he | he
    · exact hP e he
    · exact hK e he
  · intro e he
    exact hZ e (List.mem_of_mem_drop he)
  · rw [r5]
    exact cacheInflight_regions pkg q.readCache P _ hcache

theorem Step_regions (pkg : QueuePkg) (hrt : pkg.RoundTrip) (q : Queue) (s : Redis)
    (q1 : Queue) (s1 : Redis) (hstep : Step pkg q s q1 s1) (h : Regions pkg q s) :
    Regions pkg q1 s1 := by
  cases hstep with
  | init _ _ c => exact Init_regions pkg q s c (Regions_shaped pkg q s h).1 (Regions_shaped pkg q s h).2
  | add now _ _ e hid => exact Add_regions pkg hrt now q s e hid h
  | readInflight _ _ n h1 h2 h3 => exact ReadInflight_regions pkg hrt q s n h1 h2 h3 h
  | read now _ _ pids hne hids => exact Read_regions pkg hrt now q s pids hne hids h
  | replace _ _ e hcur => exact Replace_regions pkg hrt q s e hcur h
  | remove _ _ pid => exact Remove_regions pkg hrt q s pid h

theorem Reachable_regions (pkg : QueuePkg) (hrt : pkg.RoundTrip) (q : Queue) (s : Redis)
    (h : Reachable pkg q s) : Regions pkg q s := by
  induction h with
  | start q s c hs hup => exact Init_regions pkg q s c hs hup
  | step q s q1 s1 _ hstep ih => exact Step_regions pkg hrt q s q1 s1 hstep ih

/-- C16, counterexample: right after a successful `Init` on a store holding one
in-flight element, `current = 0` and `len = 1`, so position 0 lies in
`[current, len)`, and the element stored there carries identifier 5. -/
theorem Init_inflight_in_pending_region :
    (Init (emptyQueue 3) (store [simpleEncode inflightElem]) false).err = none ∧
      (Init (emptyQueue 3) (store [simpleEncode inflightElem]) false).q.current = 0 ∧
      (Init (emptyQueue 3) (store [simpleEncode inflightElem]) false).q.len = 1 ∧
      (Init (emptyQueue 3) (store [simpleEncode inflightElem]) false).s.list[0]? =
        some (simpleEncode inflightElem) ∧
      simplePkg.Decode (simpleEncode inflightElem) = some inflightElem ∧
      inflightElem.id = 5 := by
  decide

/-- C16, amended (region invariant): with a round-trip codec, in every state
reachable from an `Init` on a healthy store whose list is in-flight elements
followed by pending elements, through any sequence of `Init`, `Add` of an
element with identifier 0, `ReadInflight` with a limit from 1 to `2 ^ 63 - 1`
and an end index `current + limit - 1` below `2 ^ 63` (no wrap),
`Read` with a non-empty batch of identifiers other than 0, `Replace` called
with `current ≥ 1` and `Remove`: every stored value decodes; at a position
before `current` it carries an identifier other than 0; and once
`inflightDrained` is set, at a position from `current` on (in particular in
`[current, len)`) it carries identifier 0. -/
theorem Reachable_region_invariant (pkg : QueuePkg) (hrt : pkg.RoundTrip) (q : Queue) (s : Redis)
    (h : Reachable pkg q s) (i : Nat) (b : Bytes) (hb : s.list[i]? = some b) :
    ∃ e, pkg.Decode b = some e ∧ ((i : Int) < q.current → e.id ≠ 0) ∧
      (q.inflightDrained = true → q.current ≤ (i : Int) → e.id = 0) := by
  obtain ⟨P, X, Z, hl, hcur, hP, hX, hZ, hdr, -, -⟩ := Reachable_regions pkg hrt q s h
  rw [hl, List.getElem?_map] at hb
  cases he : (P ++ X ++ Z)[i]? with
  | none => rw [he] at hb; cases hb
  | some e =>
    rw [he] at hb
    have hbe : b = pkg.Encode e := (Option.some.inj hb).symm
    refine ⟨e, by rw [hbe, hrt e], ?_, ?_⟩
    · intro hi
      have hiP : i < P.length := by omega
      rw [List.append_assoc, List.getElem?_append_left hiP] at he
      exact hP e (List.getElem?_mem he)
    · intro hd hi
      rw [hdr hd, List.append_nil] at he
      have hiP : P.length ≤ i := by omega
      rw [List.getElem?_append_right hiP] at he
      exact hZ e (List.getElem?_mem he)

/-- Witness of C16: the state after `Init` and `ReadInflight 2` on a store
holding one in-flight element followed by one pending element; position 1 is
past `current = 1`. -/
theorem Reachable_region_invariant_witness :
    ∃ e, simplePkg.Decode (simpleEncode (ackElem 1)) = some e ∧
      (((1 : Nat) : Int) < replayedTwo.q.current → e.id ≠ 0) ∧
      (replayedTwo.q.inflightDrained = true → replayedTwo.q.current ≤ ((1 : Nat) : Int) →
        e.id = 0) :=
  Reachable_region_invariant simplePkg simplePkg_roundTrip replayedTwo.q replayedTwo.s
    (Reachable.step _ _ _ _
      (Reachable.start (emptyQueue 3)
        (store [simpleEncode inflightElem, simpleEncode (ackElem 1)]) false
        ⟨[inflightElem], [ackElem 1], rfl, by decide, by decide⟩ rfl)
      (Step.readInflight _ _ 2 (by decide) (by decide) (by decide)))
    1 (simpleEncode (ackElem 1)) (by decide)

/-- The end index of `ReadInflight` wraps: with `current = 2` and the limit
`2 ^ 63 - 1` the sum `current + limit - 1` is `2 ^ 63`, which a 64-bit `int`
holds as `-2 ^ 63`; the range read is empty, nothing is returned and
`inflightDrained` is set although the in-flight element with identifier 7 is
stored at position `current`.  The steps of `Step` leave such limits out. -/
theorem ReadInflight_end_index_wraps :
    replayedTwoOfThree.q.current = 2 ∧ replayedTwoOfThree.q.inflightDrained = false ∧
      replayedTwoOfThree.s.list[2]? = some (simpleEncode inflightElem7) ∧
      (ReadInflight simplePkg replayedTwoOfThree.q replayedTwoOfThree.s (2 ^ 63 - 1)).s.log =
        [.llen, .lrange 0 1, .lrange 2 (-2 ^ 63)] ∧
      (ReadInflight simplePkg replayedTwoOfThree.q replayedTwoOfThree.s (2 ^ 63 - 1)).elems = [] ∧
      (ReadInflight simplePkg replayedTwoOfThree.q replayedTwoOfThree.s
        (2 ^ 63 - 1)).q.current = 2 ∧
      (ReadInflight simplePkg replayedTwoOfThree.q replayedTwoOfThree.s
        (2 ^ 63 - 1)).q.inflightDrained = true := by
  decide

end Gmqtt
